import Mathlib

/-!
Shallow embedding of the `ferris` hierarchical timer wheel
(`src/lib.rs`, `src/copy_wheel.rs`, `src/alloc_wheel.rs`).

Durations are modelled as natural numbers of nanoseconds; the Rust
accessors (`num_milliseconds`, `as_secs`, `subsec_nanos`, ...) become the
corresponding truncated divisions.  The two wheel structures keep the
parallel `wheels` / `slot_indexes` vectors of the source zipped into one
`levels` list of `(slots, cursor)` pairs.  `HashSet` registries become
lists with insert-if-absent semantics (only membership is ever observed).
-/

namespace Ferris

/-- The six resolutions of `lib.rs`, declared finest to coarsest;
`derive(Ord)` in Rust orders them by declaration order. -/
inductive Resolution : Type
  | Ms
  | TenMs
  | HundredMs
  | Sec
  | Min
  | Hour
deriving DecidableEq, Repr

/-- Declaration-order ordinal of a resolution (the derived Rust `Ord`). -/
def Resolution.ord : Resolution → Nat
  | .Ms => 0
  | .TenMs => 1
  | .HundredMs => 2
  | .Sec => 3
  | .Min => 4
  | .Hour => 5

/-- The order in which the Rust `sort` arranges resolutions. -/
def resLE (a b : Resolution) : Prop := a.ord ≤ b.ord

instance : DecidableRel resLE := fun a b => inferInstanceAs (Decidable (a.ord ≤ b.ord))

instance : IsTotal Resolution resLE := ⟨fun a b => Nat.le_total a.ord b.ord⟩

instance : IsTrans Resolution resLE := ⟨fun _ _ _ h h' => Nat.le_trans h h'⟩

/-- Removal of consecutive duplicates, as Rust's `Vec::dedup`. -/
def dedupAdj : List Resolution → List Resolution
  | [] => []
  | [r] => [r]
  | r :: s :: rest => if r = s then dedupAdj (s :: rest) else r :: dedupAdj (s :: rest)

/-- `resolutions.sort(); resolutions.dedup();` from `wheel_sizes`. -/
def normalize (rs : List Resolution) : List Resolution :=
  dedupAdj (rs.insertionSort resLE)

/-- The per-level size, given the level's resolution and the next coarser
active resolution (`none` when the level is the last one), exactly as the
`match` in `wheel_sizes` (`lib.rs` lines 96-122). -/
def sizeOfRes : Resolution → Option Resolution → Nat
  | .Ms, none => 1000
  | .Ms, some .TenMs => 10
  | .Ms, some .HundredMs => 100
  | .Ms, some _ => 1000
  | .TenMs, none => 100
  | .TenMs, some .HundredMs => 10
  | .TenMs, some _ => 100
  | .HundredMs, _ => 10
  | .Sec, _ => 60
  | .Min, _ => 60
  | .Hour, _ => 24

/-- The size list computed by the loop of `wheel_sizes`: each level looks
at the immediately following resolution (or none at the end). -/
def sizesOf : List Resolution → List Nat
  | [] => []
  | r :: rest => sizeOfRes r rest.head? :: sizesOf rest

/-- `wheel_sizes` (`lib.rs`): normalizes its argument in place and returns
the sizes; we return both the normalized list and the sizes. -/
def wheel_sizes (rs : List Resolution) : List Resolution × List Nat :=
  (normalize rs, sizesOf (normalize rs))

/-! ### Durations

A duration is a natural number of nanoseconds.  The accessors used by the
two variants: the old `time` crate's `num_*` (CopyWheel) and
`std::time::Duration`'s `as_secs` / `subsec_nanos` (AllocWheel). -/

/-- `Duration::num_milliseconds` on a nonnegative duration, in ns. -/
def numMilliseconds (d : Nat) : Nat := d / 1000000

/-- `Duration::num_seconds` on a nonnegative duration, in ns. -/
def numSeconds (d : Nat) : Nat := d / 1000000000

/-- `Duration::num_minutes` on a nonnegative duration, in ns. -/
def numMinutes (d : Nat) : Nat := d / 60000000000

/-- `Duration::num_hours` on a nonnegative duration, in ns. -/
def numHours (d : Nat) : Nat := d / 3600000000000

/-- `std::time::Duration::as_secs`. -/
def asSecs (d : Nat) : Nat := d / 1000000000

/-- `std::time::Duration::subsec_nanos`. -/
def subsecNanos (d : Nat) : Nat := d % 1000000000

/-- The `slot` argument each `CopyWheel::insert_xxx` helper passes to
`insert`: the duration expressed in the level's unit, truncated, plus 1
(`copy_wheel.rs` lines 47-69). -/
def unitsC (r : Resolution) (d : Nat) : Nat :=
  match r with
  | .Hour => numHours d + 1
  | .Min => numMinutes d + 1
  | .Sec => numSeconds d + 1
  | .HundredMs => numMilliseconds d / 100 + 1
  | .TenMs => numMilliseconds d / 10 + 1
  | .Ms => numMilliseconds d + 1

/-- The `slot` argument each `AllocWheel::insert_xxx` helper passes to
`insert`: sub-second levels use only `subsec_nanos`
(`alloc_wheel.rs` lines 50-77). -/
def unitsA (r : Resolution) (d : Nat) : Nat :=
  match r with
  | .Hour => asSecs d / 3600 + 1
  | .Min => asSecs d / 60 + 1
  | .Sec => asSecs d + 1
  | .HundredMs => subsecNanos d / 100000000 + 1
  | .TenMs => subsecNanos d / 10000000 + 1
  | .Ms => subsecNanos d / 1000000 + 1

/-- `Vec::rposition` specialised to finding a resolution in the
configuration list, as in both `insert` methods. -/
def rposition (l : List Resolution) (r : Resolution) : Option Nat :=
  (l.reverse.findIdx? (fun x => x = r)).map (fun i => l.length - 1 - i)

/-! ### Levels (InnerWheel + slot_indexes)

A level is one `InnerWheel` (its list of slots, each a bag of entries)
together with its cursor from the parallel `slot_indexes` vector. -/

/-- A level: the slot vector of an `InnerWheel` paired with its cursor. -/
abbrev Levels (E : Type) := List (List (List E) × Nat)

/-- The slot sizes of a level list. -/
def sizesOfLv {E : Type} (lv : Levels E) : List Nat := lv.map (fun l => l.1.length)

/-- The cursors of a level list. -/
def cursorsOf {E : Type} (lv : Levels E) : List Nat := lv.map (fun l => l.2)

/-- The contents of slot `p` of level `L`. -/
def slotAt {E : Type} (lv : Levels E) (L p : Nat) : List E :=
  ((lv.getD L ([], 0)).1.getD p [])

/-- Total number of occurrences of an entry across all slots of all levels. -/
def totalCount {E : Type} [DecidableEq E] (lv : Levels E) (e : E) : Nat :=
  (lv.map (fun l => (l.1.map (fun es => es.count e)).sum)).sum

/-- Freshly constructed levels: `sizes.iter().map(|size| InnerWheel::new(*size))`
with all cursors zero. -/
def newLevels (E : Type) (sizes : List Nat) : Levels E :=
  sizes.map (fun s => (List.replicate s [], 0))

/-- The expiry loop shared verbatim by `CopyWheel::expire` and
`AllocWheel::expire`: advance the cursor, drain the new slot, process the
drained entries against the registry `r` (producing the updated registry
and the expired keys), and continue to the next coarser level only when
the cursor wrapped to 0. -/
def drainLevels {R E K : Type} (proc : R → List E → R × List K) (r : R) :
    Levels E → R × Levels E × List K
  | [] => (r, [], [])
  | (slots, c) :: rest =>
    let idx := (c + 1) % slots.length
    let drained := slots.getD idx []
    let slots' := slots.set idx []
    let pr := proc r drained
    if idx = 0 then
      let rec' := drainLevels proc pr.1 rest
      (rec'.1, (slots', idx) :: rec'.2.1, pr.2 ++ rec'.2.2)
    else (pr.1, (slots', idx) :: rest, pr.2)

/-! ### CopyWheel (`copy_wheel.rs`) -/

/-- The `CopyWheel` state: configuration, registry (`HashSet<T>` as a list
with insert-if-absent), and the zipped `wheels` / `slot_indexes`. -/
structure CopyWheel (K : Type) where
  resolutions : List Resolution
  keys : List K
  levels : Levels K

variable {K : Type} [DecidableEq K]

/-- `HashSet::insert`: a no-op when an equal value is already present. -/
def insertKey (ks : List K) (k : K) : List K :=
  if k ∈ ks then ks else ks ++ [k]

/-- `CopyWheel::new`. -/
def newC (rs : List Resolution) : CopyWheel K :=
  { resolutions := (wheel_sizes rs).1
    keys := []
    levels := newLevels K (wheel_sizes rs).2 }

/-- `CopyWheel::insert` (`copy_wheel.rs` lines 71-90): reject when
`slot == 1` or the resolution is not configured; otherwise clamp and
append at `(cursor + slot) % max_slot`. -/
def insertC (w : CopyWheel K) (k : K) (resolution : Resolution) (slot : Nat) :
    Option (CopyWheel K) :=
  if slot = 1 then none
  else
    match rposition w.resolutions resolution with
    | none => none
    | some wi =>
      let lvl := w.levels.getD wi ([], 0)
      let maxSlot := lvl.1.length
      let slot' := if slot > maxSlot then maxSlot else slot
      let slotIndex := (lvl.2 + slot') % maxSlot
      let newSlots := lvl.1.set slotIndex ((lvl.1.getD slotIndex []) ++ [k])
      some { w with levels := w.levels.set wi (newSlots, lvl.2) }

/-- `CopyWheel::start`: register the key, then the `or_else` chain of
placement attempts from coarsest to finest. -/
def startC (w : CopyWheel K) (k : K) (d : Nat) : CopyWheel K :=
  let w0 : CopyWheel K := { w with keys := insertKey w.keys k }
  match insertC w0 k .Hour (unitsC .Hour d) with
  | some w1 => w1
  | none =>
    match insertC w0 k .Min (unitsC .Min d) with
    | some w1 => w1
    | none =>
      match insertC w0 k .Sec (unitsC .Sec d) with
      | some w1 => w1
      | none =>
        match insertC w0 k .HundredMs (unitsC .HundredMs d) with
        | some w1 => w1
        | none =>
          match insertC w0 k .TenMs (unitsC .TenMs d) with
          | some w1 => w1
          | none =>
            match insertC w0 k .Ms (unitsC .Ms d) with
            | some w1 => w1
            | none => w0

/-- `CopyWheel::stop`: remove the key from the registry. -/
def stopC (w : CopyWheel K) (k : K) : CopyWheel K :=
  { w with keys := w.keys.erase k }

/-- The per-slot processing of `CopyWheel::expire`:
`.drain(..).filter(|key| keys.remove(key))`, entry by entry. -/
def filterRemove (ks : List K) : List K → List K × List K
  | [] => (ks, [])
  | e :: rest =>
    if e ∈ ks then
      let p := filterRemove (ks.erase e) rest
      (p.1, e :: p.2)
    else filterRemove ks rest

/-- `CopyWheel::expire`: returns the updated wheel and the expired keys. -/
def expireC (w : CopyWheel K) : CopyWheel K × List K :=
  let d := drainLevels filterRemove w.keys w.levels
  ({ w with keys := d.1, levels := d.2.1 }, d.2.2)

/-- The wheel state after driving `expire` `n` times. -/
def tickC (w : CopyWheel K) : Nat → CopyWheel K
  | 0 => w
  | n + 1 => (expireC (tickC w n)).1

/-- The keys returned by the `expire` call with 0-indexed tick count `n`. -/
def outC (w : CopyWheel K) (n : Nat) : List K :=
  (expireC (tickC w n)).2

/-! ### AllocWheel (`alloc_wheel.rs`)

An `Rc<T>` allocation is modelled as a cell identifier (a fresh natural
number per `Rc::new`).  The registry is the list of strong references:
pairs of a cell id and the key value it owns.  The `HashSet<Rc<T>>`
hashes and compares through the value, so insertion/removal is by value;
a cell is alive (a `Weak::upgrade` on it succeeds) exactly when its id is
still in the registry, because the registry holds the only long-lived
strong reference.  Slots hold `Weak<T>` entries, i.e. bare cell ids. -/

/-- The `AllocWheel` state.  `nextId` is the allocation counter; `fail`
records whether an `Rc::try_unwrap(..).unwrap()` in `expire` has ever
panicked (i.e. found another strong reference still alive). -/
structure AllocWheel (K : Type) where
  resolutions : List Resolution
  keys : List (Nat × K)
  levels : Levels Nat
  nextId : Nat
  fail : Bool

/-- `AllocWheel::new`. -/
def newA (rs : List Resolution) : AllocWheel K :=
  { resolutions := (wheel_sizes rs).1
    keys := []
    levels := newLevels Nat (wheel_sizes rs).2
    nextId := 0
    fail := false }

/-- `AllocWheel::insert` (`alloc_wheel.rs` lines 79-98): identical to the
copy variant but the entry is a weak reference (cell id). -/
def insertA (w : AllocWheel K) (id : Nat) (resolution : Resolution) (slot : Nat) :
    Option (AllocWheel K) :=
  if slot = 1 then none
  else
    match rposition w.resolutions resolution with
    | none => none
    | some wi =>
      let lvl := w.levels.getD wi ([], 0)
      let maxSlot := lvl.1.length
      let slot' := if slot > maxSlot then maxSlot else slot
      let slotIndex := (lvl.2 + slot') % maxSlot
      let newSlots := lvl.1.set slotIndex ((lvl.1.getD slotIndex []) ++ [id])
      some { w with levels := w.levels.set wi (newSlots, lvl.2) }

/-- `AllocWheel::start`: allocate a fresh cell for the key, insert the
strong reference into the registry (`HashSet::insert` drops the new `Rc`
when an equal value is already present, leaving the cell dead), and run
the placement chain with the weak reference. -/
def startA (w : AllocWheel K) (k : K) (d : Nat) : AllocWheel K :=
  let id := w.nextId
  let keys' := if w.keys.any (fun e => e.2 = k) then w.keys else w.keys ++ [(id, k)]
  let w0 : AllocWheel K := { w with keys := keys', nextId := id + 1 }
  match insertA w0 id .Hour (unitsA .Hour d) with
  | some w1 => w1
  | none =>
    match insertA w0 id .Min (unitsA .Min d) with
    | some w1 => w1
    | none =>
      match insertA w0 id .Sec (unitsA .Sec d) with
      | some w1 => w1
      | none =>
        match insertA w0 id .HundredMs (unitsA .HundredMs d) with
        | some w1 => w1
        | none =>
          match insertA w0 id .TenMs (unitsA .TenMs d) with
          | some w1 => w1
          | none =>
            match insertA w0 id .Ms (unitsA .Ms d) with
            | some w1 => w1
            | none => w0

/-- `AllocWheel::stop`: remove the strong reference by value. -/
def stopA (w : AllocWheel K) (k : K) : AllocWheel K :=
  { w with keys := w.keys.eraseP (fun e => e.2 = k) }

/-- The per-slot processing of `AllocWheel::expire`:
`.drain(..).filter_map(|key| key.upgrade()).filter(|key| keys.remove(key))
 .map(|key| Rc::try_unwrap(key).unwrap())`.
The registry is threaded together with the panic flag of `unwrap`: after
the registry entry equal in value to the upgraded cell has been removed,
any surviving strong reference to the same cell would make
`Rc::try_unwrap` fail. -/
def upgradeFilter (r : List (Nat × K) × Bool) : List Nat → (List (Nat × K) × Bool) × List K
  | [] => (r, [])
  | id :: rest =>
    match r.1.find? (fun e => e.1 = id) with
    | none => upgradeFilter r rest
    | some c =>
      if r.1.any (fun e => e.2 = c.2) then
        let ks' := r.1.eraseP (fun e => e.2 = c.2)
        let bad := ks'.any (fun e => e.1 = id)
        let p := upgradeFilter (ks', r.2 || bad) rest
        (p.1, c.2 :: p.2)
      else upgradeFilter r rest

/-- `AllocWheel::expire`. -/
def expireA (w : AllocWheel K) : AllocWheel K × List K :=
  let d := drainLevels upgradeFilter (w.keys, w.fail) w.levels
  ({ w with keys := d.1.1, fail := d.1.2, levels := d.2.1 }, d.2.2)

/-- The wheel state after driving `expire` `n` times. -/
def tickA (w : AllocWheel K) : Nat → AllocWheel K
  | 0 => w
  | n + 1 => (expireA (tickA w n)).1

/-- The keys returned by the `expire` call with 0-indexed tick count `n`. -/
def outA (w : AllocWheel K) (n : Nat) : List K :=
  (expireA (tickA w n)).2

/-! ### Cursor dynamics

The cursors of the levels form a mixed-radix counter: after `n` calls to
`expire` from a freshly built wheel, level `i`'s cursor is digit `i` of
`n` in the mixed radix given by the level sizes. -/

/-- Mixed-radix digits of `n` for the radix list `sz` (finest first). -/
def digits : List Nat → Nat → List Nat
  | [], _ => []
  | s :: ss, n => n % s :: digits ss (n / s)

/-- All radices positive. -/
def AllPos (sz : List Nat) : Prop := ∀ s ∈ sz, 0 < s

/-- A level list has slot-vector lengths `sz` and the cursors of the
mixed-radix counter value `n`. -/
def Shaped {E : Type} (sz : List Nat) (n : Nat) (lv : Levels E) : Prop :=
  sizesOfLv lv = sz ∧ cursorsOf lv = digits sz n

/-- `hitB sz L p t = true` exactly when the `expire` call that moves the
counter to value `t` drains slot `p` of level `L`. -/
def hitB : List Nat → Nat → Nat → Nat → Bool
  | s :: _, 0, p, t => t % s == p
  | s :: ss, L + 1, p, t => (t % s == 0) && hitB ss L p (t / s)
  | [], _, _, _ => false

theorem succ_mod (s n : Nat) : (n % s + 1) % s = (n + 1) % s := by
  conv_rhs => rw [Nat.add_mod]
  rcases s with _ | _ | s
  · rfl
  · simp [Nat.mod_one]
  · rw [Nat.one_mod]

theorem digits_zero (sz : List Nat) : digits sz 0 = List.replicate sz.length 0 := by
  induction sz with
  | nil => rfl
  | cons s ss ih => simp [digits, ih, List.replicate]

theorem drainLevels_shape {R E K : Type} (proc : R → List E → R × List K) :
    ∀ (lv : Levels E) (sz : List Nat) (n : Nat) (r : R), AllPos sz →
      Shaped sz n lv → Shaped sz (n + 1) (drainLevels proc r lv).2.1 := by
  intro lv
  induction lv with
  | nil =>
    intro sz n r _ hS
    obtain ⟨h1, h2⟩ := hS
    simp only [sizesOfLv, List.map_nil] at h1
    subst h1
    exact ⟨rfl, rfl⟩
  | cons hd rest ih =>
    intro sz n r hpos hS
    obtain ⟨slots, c⟩ := hd
    obtain ⟨h1, h2⟩ := hS
    simp only [sizesOfLv, cursorsOf, List.map_cons] at h1 h2
    subst h1
    have hspos : 0 < slots.length := hpos _ (by simp)
    simp only [digits, List.cons.injEq] at h2
    obtain ⟨hc, hcrest⟩ := h2
    have hidx : (c + 1) % slots.length = (n + 1) % slots.length := by
      rw [hc]; exact succ_mod _ _
    have hposr : AllPos (sizesOfLv rest) := fun s hs => hpos s (List.mem_cons_of_mem _ hs)
    simp only [drainLevels, hidx]
    by_cases h0 : (n + 1) % slots.length = 0
    · have hdvd : slots.length ∣ (n + 1) := Nat.dvd_of_mod_eq_zero h0
      have hrest : ∀ r' : R, Shaped (sizesOfLv rest) (n / slots.length + 1)
          (drainLevels proc r' rest).2.1 :=
        fun r' => ih (sizesOfLv rest) (n / slots.length) r' hposr ⟨rfl, hcrest⟩
      simp only [if_pos h0]
      constructor
      · simp only [sizesOfLv, List.map_cons, List.length_set, List.cons.injEq]
        exact ⟨trivial, (hrest _).1⟩
      · simp only [cursorsOf, List.map_cons, digits, List.cons.injEq]
        refine ⟨trivial, ?_⟩
        rw [Nat.succ_div_of_dvd hdvd]
        exact (hrest _).2
    · simp only [if_neg h0]
      constructor
      · simp only [sizesOfLv, List.map_cons, List.length_set]
      · simp only [cursorsOf, List.map_cons, digits, List.cons.injEq]
        have hdiv : (n + 1) / slots.length = n / slots.length :=
          Nat.succ_div_of_not_dvd (fun hd => h0 (Nat.dvd_iff_mod_eq_zero.mp hd))
        exact ⟨trivial, by rw [hdiv]; exact hcrest⟩

/-! ### Occurrence counting across one expiry call -/

/-- The number of occurrences of `e` among the slots drained by one
`expire` call starting from levels `lv`. -/
def drainedCount {E : Type} [DecidableEq E] : Levels E → E → Nat
  | [], _ => 0
  | (slots, c) :: rest, e =>
    let idx := (c + 1) % slots.length
    (slots.getD idx []).count e + if idx = 0 then drainedCount rest e else 0

section Counting

variable {E : Type} [DecidableEq E]

/-- The sum of the per-slot counts of `e` over a slot vector. -/
def slotSum (slots : List (List E)) (e : E) : Nat :=
  (slots.map (fun es => es.count e)).sum

theorem getD_count_le_slotSum : ∀ (slots : List (List E)) (p : Nat) (e : E),
    (slots.getD p []).count e ≤ slotSum slots e := by
  intro slots
  induction slots with
  | nil => intro p e; simp [slotSum]
  | cons s ss ih =>
    intro p e
    cases p with
    | zero => simp [slotSum, List.getD]
    | succ q =>
      have := ih q e
      simp only [slotSum, List.map_cons, List.sum_cons, List.getD_cons_succ]
      simp only [slotSum] at this
      omega

theorem getD_count_pair_le_slotSum : ∀ (slots : List (List E)) (p q : Nat) (e : E), p ≠ q →
    (slots.getD p []).count e + (slots.getD q []).count e ≤ slotSum slots e := by
  intro slots
  induction slots with
  | nil => intro p q e _; simp [slotSum]
  | cons s ss ih =>
    intro p q e hne
    cases p with
    | zero =>
      cases q with
      | zero => exact absurd rfl hne
      | succ q' =>
        have := getD_count_le_slotSum ss q' e
        simp only [slotSum, List.map_cons, List.sum_cons, List.getD_cons_zero,
          List.getD_cons_succ]
        simp only [slotSum] at this
        omega
    | succ p' =>
      cases q with
      | zero =>
        have := getD_count_le_slotSum ss p' e
        simp only [slotSum, List.map_cons, List.sum_cons, List.getD_cons_zero,
          List.getD_cons_succ]
        simp only [slotSum] at this
        omega
      | succ q' =>
        have := ih p' q' e (fun h => hne (by rw [h]))
        simp only [slotSum, List.map_cons, List.sum_cons, List.getD_cons_succ]
        simp only [slotSum] at this
        omega

theorem slotSum_set_nil : ∀ (slots : List (List E)) (idx : Nat) (e : E),
    slotSum (slots.set idx []) e + (slots.getD idx []).count e = slotSum slots e := by
  intro slots
  induction slots with
  | nil => intro idx e; simp [slotSum]
  | cons s ss ih =>
    intro idx e
    cases idx with
    | zero => simp [slotSum, List.getD]; omega
    | succ j =>
      have := ih j e
      simp only [slotSum, List.set_cons_succ, List.map_cons, List.sum_cons,
        List.getD_cons_succ] at *
      omega

theorem slotAt_count_le_total : ∀ (lv : Levels E) (L p : Nat) (e : E),
    (slotAt lv L p).count e ≤ totalCount lv e := by
  intro lv
  induction lv with
  | nil => intro L p e; simp [slotAt, totalCount]
  | cons hd rest ih =>
    intro L p e
    obtain ⟨slots, c⟩ := hd
    cases L with
    | zero =>
      have := getD_count_le_slotSum slots p e
      simp only [slotAt, totalCount, List.getD_cons_zero, List.map_cons, List.sum_cons]
      simp only [slotSum] at this
      omega
    | succ L' =>
      have := ih L' p e
      simp only [slotAt, totalCount, List.getD_cons_succ, List.map_cons, List.sum_cons] at *
      omega

theorem drainedCount_le_total : ∀ (lv : Levels E) (e : E),
    drainedCount lv e ≤ totalCount lv e := by
  intro lv
  induction lv with
  | nil => intro e; simp [drainedCount, totalCount]
  | cons hd rest ih =>
    intro e
    obtain ⟨slots, c⟩ := hd
    have h1 := getD_count_le_slotSum slots ((c + 1) % slots.length) e
    have h2 := ih e
    simp only [drainedCount, totalCount, List.map_cons, List.sum_cons]
    simp only [slotSum] at h1
    simp only [totalCount] at h2
    split <;> omega

theorem totalCount_drain {R K : Type} (proc : R → List E → R × List K) :
    ∀ (lv : Levels E) (r : R) (e : E),
      totalCount (drainLevels proc r lv).2.1 e + drainedCount lv e = totalCount lv e := by
  intro lv
  induction lv with
  | nil => intro r e; simp [drainLevels, drainedCount, totalCount]
  | cons hd rest ih =>
    intro r e
    obtain ⟨slots, c⟩ := hd
    have hset := slotSum_set_nil slots ((c + 1) % slots.length) e
    simp only [drainLevels, drainedCount]
    by_cases h0 : (c + 1) % slots.length = 0
    · have hih := ih (proc r (slots.getD ((c + 1) % slots.length) [])).1 e
      simp only [h0, eq_self_iff_true, if_true]
      simp only [totalCount, List.map_cons, List.sum_cons]
      simp only [totalCount] at hih
      simp only [slotSum] at hset
      simp only [h0] at hset hih ⊢
      omega
    · simp only [if_neg h0]
      simp only [totalCount, List.map_cons, List.sum_cons]
      simp only [slotSum] at hset
      omega

theorem drainedCount_unique :
    ∀ (lv : Levels E) (sz : List Nat) (n L p : Nat) (e : E), AllPos sz → Shaped sz n lv →
      totalCount lv e = 1 → (slotAt lv L p).count e = 1 →
      drainedCount lv e = if hitB sz L p (n + 1) then 1 else 0 := by
  intro lv
  induction lv with
  | nil =>
    intro sz n L p e _ _ _ hslot
    simp [slotAt] at hslot
  | cons hd rest ih =>
    intro sz n L p e hpos hS htot hslot
    obtain ⟨slots, c⟩ := hd
    obtain ⟨h1, h2⟩ := hS
    simp only [sizesOfLv, cursorsOf, List.map_cons] at h1 h2
    subst h1
    have hspos : 0 < slots.length := hpos _ (by simp)
    simp only [digits, List.cons.injEq] at h2
    obtain ⟨hc, hcrest⟩ := h2
    have hidx : (c + 1) % slots.length = (n + 1) % slots.length := by
      rw [hc]; exact succ_mod _ _
    have hposr : AllPos (sizesOfLv rest) := fun s hs => hpos s (List.mem_cons_of_mem _ hs)
    simp only [totalCount, List.map_cons, List.sum_cons] at htot
    simp only [drainedCount, hidx]
    cases L with
    | zero =>
      simp only [slotAt, List.getD_cons_zero] at hslot
      have hple := getD_count_le_slotSum slots p e
      simp only [slotSum] at hple
      have htot0 : totalCount rest e = 0 := by
        simp only [totalCount]; omega
      have hdr0 : drainedCount rest e = 0 :=
        Nat.le_antisymm (htot0 ▸ drainedCount_le_total rest e) (Nat.zero_le _)
      have hsum1 : (slots.map (fun es => es.count e)).sum = 1 := by omega
      simp only [hitB]
      by_cases hip : (n + 1) % slots.length = p
      · have hbe : ((n + 1) % slots.length == p) = true := by simp [hip]
        simp only [hip, hslot, hdr0, beq_self_eq_true, if_true]
        split <;> omega
      · have hbe : ((n + 1) % slots.length == p) = false := by simp [hip]
        have hpair := getD_count_pair_le_slotSum slots ((n + 1) % slots.length) p e hip
        simp only [slotSum] at hpair
        simp only [hbe, Bool.false_eq_true, if_false, hdr0]
        split <;> omega
    | succ L' =>
      simp only [slotAt, List.getD_cons_succ] at hslot
      have hrge : 1 ≤ totalCount rest e := by
        have := slotAt_count_le_total rest L' p e
        simp only [slotAt] at this
        omega
      have hsum0 : (slots.map (fun es => es.count e)).sum = 0 := by
        simp only [totalCount] at hrge
        omega
      have hcnt0 : (slots.getD ((n + 1) % slots.length) []).count e = 0 := by
        have := getD_count_le_slotSum slots ((n + 1) % slots.length) e
        simp only [slotSum] at this
        omega
      by_cases h0 : (n + 1) % slots.length = 0
      · have hdvd : slots.length ∣ (n + 1) := Nat.dvd_of_mod_eq_zero h0
        have hrecn : (n + 1) / slots.length = n / slots.length + 1 := Nat.succ_div_of_dvd hdvd
        have htotr : totalCount rest e = 1 := by
          simp only [totalCount] at hrge ⊢
          omega
        have hihr := ih (sizesOfLv rest) (n / slots.length) L' p e hposr ⟨rfl, hcrest⟩ htotr hslot
        simp only [sizesOfLv] at hihr
        simp only [hitB, h0, eq_self_iff_true, if_true, hrecn, hihr, beq_self_eq_true,
          Bool.true_and]
        have hcnt0x := hcnt0
        rw [h0] at hcnt0x
        omega
      · have hbe : ((n + 1) % slots.length == 0) = false := by simp [h0]
        simp only [hitB, hcnt0, if_neg h0, hbe, Bool.false_and, Bool.false_eq_true, if_false]

theorem slotAt_drain_eq {R K : Type} (proc : R → List E → R × List K) :
    ∀ (lv : Levels E) (sz : List Nat) (n L p : Nat) (r : R), AllPos sz → Shaped sz n lv →
      hitB sz L p (n + 1) = false →
      slotAt (drainLevels proc r lv).2.1 L p = slotAt lv L p := by
  intro lv
  induction lv with
  | nil =>
    intro sz n L p r _ hS _
    rfl
  | cons hd rest ih =>
    intro sz n L p r hpos hS hmiss
    obtain ⟨slots, c⟩ := hd
    obtain ⟨h1, h2⟩ := hS
    simp only [sizesOfLv, cursorsOf, List.map_cons] at h1 h2
    subst h1
    have hspos : 0 < slots.length := hpos _ (by simp)
    simp only [digits, List.cons.injEq] at h2
    obtain ⟨hc, hcrest⟩ := h2
    have hidx : (c + 1) % slots.length = (n + 1) % slots.length := by
      rw [hc]; exact succ_mod _ _
    have hposr : AllPos (sizesOfLv rest) := fun s hs => hpos s (List.mem_cons_of_mem _ hs)
    simp only [drainLevels, hidx]
    cases L with
    | zero =>
      simp only [hitB] at hmiss
      have hip : (n + 1) % slots.length ≠ p := by
        intro h; rw [h] at hmiss; simp at hmiss
      by_cases h0 : (n + 1) % slots.length = 0
      · simp only [h0, eq_self_iff_true, if_true, slotAt, List.getD_cons_zero]
        rw [List.getD_eq_getElem?_getD, List.getD_eq_getElem?_getD,
          List.getElem?_set_ne (by rw [h0] at hip; exact hip)]
      · simp only [if_neg h0, slotAt, List.getD_cons_zero]
        rw [List.getD_eq_getElem?_getD, List.getD_eq_getElem?_getD,
          List.getElem?_set_ne hip]
    | succ L' =>
      simp only [hitB] at hmiss
      by_cases h0 : (n + 1) % slots.length = 0
      · have hdvd : slots.length ∣ (n + 1) := Nat.dvd_of_mod_eq_zero h0
        have hrecn : (n + 1) / slots.length = n / slots.length + 1 := Nat.succ_div_of_dvd hdvd
        have hmiss' : hitB (sizesOfLv rest) L' p (n / slots.length + 1) = false := by
          rw [h0] at hmiss
          simpa [hrecn] using hmiss
        simp only [h0, eq_self_iff_true, if_true, slotAt, List.getD_cons_succ]
        have := ih (sizesOfLv rest) (n / slots.length) L' p
          (proc r (slots.getD ((n + 1) % slots.length) [])).1 hposr ⟨rfl, hcrest⟩ hmiss'
        simp only [slotAt] at this
        simp only [h0] at this
        exact this
      · simp only [if_neg h0, slotAt, List.getD_cons_succ]

end Counting

/-! ### Counting through `CopyWheel::expire` -/

theorem filterRemove_count : ∀ (es ks : List K) (k : K),
    ((filterRemove ks es).2).count k = min (ks.count k) (es.count k) ∧
    ((filterRemove ks es).1).count k + ((filterRemove ks es).2).count k = ks.count k := by
  intro es
  induction es with
  | nil => intro ks k; simp [filterRemove]
  | cons e rest ih =>
    intro ks k
    by_cases he : e ∈ ks
    · obtain ⟨ih1, ih2⟩ := ih (ks.erase e) k
      have hpos : 0 < ks.count e := List.count_pos_iff.2 he
      simp only [filterRemove, if_pos he, List.count_cons]
      by_cases hek : e = k
      · subst hek
        have hcnt : (ks.erase e).count e = ks.count e - 1 := List.count_erase_self e ks
        rw [hcnt] at ih1 ih2
        simp only [beq_self_eq_true, if_true]
        omega
      · have hcnt : (ks.erase e).count k = ks.count k :=
          List.count_erase_of_ne (fun h => hek h.symm) ks
        rw [hcnt] at ih1 ih2
        have hbe : (e == k) = false := by simp [hek]
        simp only [hbe, Bool.false_eq_true, if_false]
        omega
    · obtain ⟨jh1, jh2⟩ := ih ks k
      have hzero : ks.count e = 0 := List.count_eq_zero.2 he
      simp only [filterRemove, if_neg he, List.count_cons]
      by_cases hek : e = k
      · subst hek
        simp only [beq_self_eq_true, if_true]
        omega
      · have hbe : (e == k) = false := by simp [hek]
        simp only [hbe, Bool.false_eq_true, if_false]
        omega

theorem drainC_count : ∀ (lv : Levels K) (ks : List K) (k : K),
    ((drainLevels filterRemove ks lv).2.2).count k = min (ks.count k) (drainedCount lv k) ∧
    ((drainLevels filterRemove ks lv).1).count k
      + ((drainLevels filterRemove ks lv).2.2).count k = ks.count k := by
  intro lv
  induction lv with
  | nil => intro ks k; simp [drainLevels, drainedCount]
  | cons hd rest ih =>
    intro ks k
    obtain ⟨slots, c⟩ := hd
    obtain ⟨f1, f2⟩ := filterRemove_count (slots.getD ((c + 1) % slots.length) []) ks k
    simp only [drainLevels, drainedCount]
    by_cases h0 : (c + 1) % slots.length = 0
    · obtain ⟨g1, g2⟩ :=
        ih (filterRemove ks (slots.getD ((c + 1) % slots.length) [])).1 k
      simp only [h0, eq_self_iff_true, if_true] at f1 f2 g1 g2 ⊢
      constructor
      · rw [List.count_append]
        omega
      · rw [List.count_append]
        omega
    · simp only [if_neg h0, Nat.add_zero]
      exact ⟨f1, f2⟩

/-! ### Counting through `AllocWheel::expire` -/

/-- Number of registry entries whose key value is `k`. -/
def valCount (r : List (Nat × K)) (k : K) : Nat := (r.map Prod.snd).count k

/-- The registry invariants of the alloc wheel: distinct cell ids (each
`Rc::new` is a fresh allocation) and distinct key values (`HashSet`
semantics). -/
def RegInv (r : List (Nat × K)) : Prop :=
  (r.map Prod.fst).Nodup ∧ (r.map Prod.snd).Nodup

theorem find?_id_nodup : ∀ (r : List (Nat × K)) (id : Nat) (k : K),
    (r.map Prod.fst).Nodup → (id, k) ∈ r →
    r.find? (fun e => decide (e.1 = id)) = some (id, k) := by
  intro r
  induction r with
  | nil => intro id k _ hm; simp at hm
  | cons c rest ih =>
    intro id k hi hm
    simp only [List.map_cons, List.nodup_cons] at hi
    by_cases hc : c.1 = id
    · have hck : c = (id, k) := by
        rcases List.mem_cons.1 hm with h | h
        · exact h.symm
        · exact absurd (hc ▸ List.mem_map.2 ⟨(id, k), h, rfl⟩) hi.1
      rw [List.find?_cons]
      simp [hc, hck]
    · have hm' : (id, k) ∈ rest := by
        rcases List.mem_cons.1 hm with h | h
        · exact absurd (congrArg Prod.fst h.symm) hc
        · exact h
      rw [List.find?_cons]
      simp only [hc, decide_False]
      exact ih id k hi.2 hm'

theorem eraseP_val_perm : ∀ (r : List (Nat × K)) (c : Nat × K),
    (r.map Prod.snd).Nodup → c ∈ r →
    r.Perm (c :: r.eraseP (fun e => decide (e.2 = c.2))) := by
  intro r c hv hc
  obtain ⟨a, l1, l2, hnot, hpa, hderive, hrw⟩ :=
    List.exists_of_eraseP hc (p := fun e => decide (e.2 = c.2)) (by simp)
  simp only [decide_eq_true_eq] at hpa
  have hac : a = c := by
    by_contra hne
    have hamem : a ∈ r := by rw [hderive]; exact List.mem_append.2 (Or.inr (List.mem_cons_self _ _))
    have h2 : ¬ (r.map Prod.snd).Nodup := by
      rw [List.nodup_iff_count_le_one]
      push_neg
      refine ⟨c.2, ?_⟩
      have hca : (r.map Prod.snd).count c.2 ≥ 2 := by
        rw [hderive]
        have hcm : c ∈ l1 ++ l2 := by
          have : c ∈ l1 ++ a :: l2 := hderive ▸ hc
          rcases List.mem_append.1 this with h | h
          · exact List.mem_append.2 (Or.inl h)
          · rcases List.mem_cons.1 h with h' | h'
            · exact absurd h'.symm hne
            · exact List.mem_append.2 (Or.inr h')
        have h1 : (1 : Nat) ≤ ((l1 ++ l2).map Prod.snd).count c.2 :=
          List.count_pos_iff.2 (List.mem_map.2 ⟨c, hcm, rfl⟩)
        simp only [List.map_append, List.map_cons, List.count_append, List.count_cons] at *
        simp only [hpa, beq_self_eq_true, if_true]
        omega
      omega
    exact h2 hv
  subst hac
  rw [hrw]
  rw [hderive]
  exact List.perm_middle

theorem upgradeFilter_spec : ∀ (es : List Nat) (r : List (Nat × K)) (b : Bool), RegInv r →
    RegInv (upgradeFilter (r, b) es).1.1 ∧
    (upgradeFilter (r, b) es).1.2 = b ∧
    (∀ x, x ∈ (upgradeFilter (r, b) es).1.1 → x ∈ r) ∧
    (∀ k, valCount (upgradeFilter (r, b) es).1.1 k + ((upgradeFilter (r, b) es).2).count k
        = valCount r k) ∧
    (∀ x : Nat × K, x ∈ r → (∀ i ∈ es, i ≠ x.1) → x ∈ (upgradeFilter (r, b) es).1.1) ∧
    (∀ id k, (id, k) ∈ r → id ∈ es → valCount (upgradeFilter (r, b) es).1.1 k = 0) := by
  intro es
  induction es with
  | nil =>
    intro r b hInv
    exact ⟨hInv, rfl, fun x hx => hx, fun k => by simp [upgradeFilter, valCount],
      fun x hx _ => hx, fun id k _ hmem => by simp at hmem⟩
  | cons e rest ih =>
    intro r b hInv
    cases hf : r.find? (fun x => decide (x.1 = e)) with
    | none =>
      have heq : upgradeFilter (r, b) (e :: rest) = upgradeFilter (r, b) rest := by
        simp only [upgradeFilter, hf]
      obtain ⟨i1, i2, i3, i4, i5, i6⟩ := ih r b hInv
      rw [heq]
      refine ⟨i1, i2, i3, i4, ?_, ?_⟩
      · intro x hx hall
        exact i5 x hx (fun i hi => hall i (List.mem_cons_of_mem _ hi))
      · intro id k hmem hin
        rcases List.mem_cons.1 hin with h | h
        · subst h
          have := List.find?_eq_none.1 hf (id, k) hmem
          simp at this
        · exact i6 id k hmem h
    | some c =>
      have hcmem : c ∈ r := List.mem_of_find?_eq_some hf
      have hce : c.1 = e := by simpa using List.find?_some hf
      have hany : r.any (fun x => decide (x.2 = c.2)) = true :=
        List.any_eq_true.2 ⟨c, hcmem, by simp⟩
      have hperm : r.Perm (c :: r.eraseP (fun x => decide (x.2 = c.2))) :=
        eraseP_val_perm r c hInv.2 hcmem
      have hpermv : (r.map Prod.snd).Perm
          (c.2 :: (r.eraseP (fun x => decide (x.2 = c.2))).map Prod.snd) := by
        simpa using hperm.map Prod.snd
      have hpermi : (r.map Prod.fst).Perm
          (c.1 :: (r.eraseP (fun x => decide (x.2 = c.2))).map Prod.fst) := by
        simpa using hperm.map Prod.fst
      have hInvI := hpermi.nodup_iff.1 hInv.1
      have hInvV := hpermv.nodup_iff.1 hInv.2
      have hInv2 : RegInv (r.eraseP (fun x => decide (x.2 = c.2))) :=
        ⟨(List.nodup_cons.1 hInvI).2, (List.nodup_cons.1 hInvV).2⟩
      have hbad : (r.eraseP (fun x => decide (x.2 = c.2))).any
          (fun x => decide (x.1 = e)) = false := by
        rw [Bool.eq_false_iff]
        intro hx
        obtain ⟨x, hxm, hxe⟩ := List.any_eq_true.1 hx
        simp only [decide_eq_true_eq] at hxe
        have hm : x.1 ∈ (r.eraseP (fun x => decide (x.2 = c.2))).map Prod.fst :=
          List.mem_map.2 ⟨x, hxm, rfl⟩
        rw [hxe, ← hce] at hm
        exact (List.nodup_cons.1 hInvI).1 hm
      have heq : upgradeFilter (r, b) (e :: rest)
          = ((upgradeFilter (r.eraseP (fun x => decide (x.2 = c.2)), b) rest).1,
             c.2 :: (upgradeFilter (r.eraseP (fun x => decide (x.2 = c.2)), b) rest).2) := by
        simp only [upgradeFilter, hf, hany, if_true, hbad, Bool.or_false]
      have heq1 := congrArg Prod.fst heq
      have heq2 := congrArg Prod.snd heq
      simp only at heq1 heq2
      obtain ⟨i1, i2, i3, i4, i5, i6⟩ :=
        ih (r.eraseP (fun x => decide (x.2 = c.2))) b hInv2
      have hvcount : ∀ k, valCount r k
          = valCount (r.eraseP (fun x => decide (x.2 = c.2))) k
            + (if c.2 = k then 1 else 0) := by
        intro k
        have hcc := hpermv.count_eq k
        simp only [valCount, hcc, List.count_cons]
        by_cases hck : c.2 = k
        · simp [hck]
        · simp [hck]
      refine ⟨?_, ?_, ?_, ?_, ?_, ?_⟩
      · rw [heq1]; exact i1
      · rw [heq1]; exact i2
      · intro x hx
        rw [heq1] at hx
        exact hperm.mem_iff.2 (List.mem_cons_of_mem _ (i3 x hx))
      · intro k
        rw [heq1, heq2]
        have h4 := i4 k
        by_cases hck : c.2 = k
        · have hv2 : valCount r k
              = valCount (r.eraseP (fun x => decide (x.2 = c.2))) k + 1 := by
            rw [hvcount k, if_pos hck]
          have hb : (c.2 == k) = true := by simp [hck]
          simp only [List.count_cons, hb, if_true]
          omega
        · have hv2 : valCount r k
              = valCount (r.eraseP (fun x => decide (x.2 = c.2))) k := by
            rw [hvcount k, if_neg hck]
            omega
          have hb : (c.2 == k) = false := by simp [hck]
          simp only [List.count_cons, hb, Bool.false_eq_true, if_false]
          omega
      · intro x hx hall
        rw [heq1]
        have hxc : x ≠ c := by
          intro h
          exact hall e (List.mem_cons_self _ _) (by rw [h, hce])
        have hx2 : x ∈ r.eraseP (fun x => decide (x.2 = c.2)) := by
          rcases List.mem_cons.1 (hperm.mem_iff.1 hx) with h | h
          · exact absurd h hxc
          · exact h
        exact i5 x hx2 (fun i hi => hall i (List.mem_cons_of_mem _ hi))
      · intro id k hmem hin
        rw [heq1]
        by_cases hide : id = e
        · subst hide
          have hcid : c = (id, k) := by
            have h2 := find?_id_nodup r id k hInv.1 hmem
            rw [hf] at h2
            exact Option.some.inj h2
          have hv1 : valCount r k = 1 := by
            have hle : valCount r k ≤ 1 :=
              List.nodup_iff_count_le_one.1 hInv.2 k
            have hge : 0 < valCount r k :=
              List.count_pos_iff.2 (List.mem_map.2 ⟨(id, k), hmem, rfl⟩)
            omega
          have hc2k : c.2 = k := by rw [hcid]
          have hv0 : valCount (r.eraseP (fun x => decide (x.2 = c.2))) k = 0 := by
            have hvc := hvcount k
            rw [if_pos hc2k] at hvc
            omega
          have h4 := i4 k
          omega
        · have hmem2 : (id, k) ∈ r.eraseP (fun x => decide (x.2 = c.2)) := by
            have hxc : (id, k) ≠ c := by
              intro h
              exact hide (by rw [← hce, ← h])
            rcases List.mem_cons.1 (hperm.mem_iff.1 hmem) with h | h
            · exact absurd h hxc
            · exact h
          rcases List.mem_cons.1 hin with h | h
          · exact absurd h hide
          · exact i6 id k hmem2 h

theorem drainA_spec : ∀ (lv : Levels Nat) (r : List (Nat × K)) (b : Bool), RegInv r →
    RegInv (drainLevels upgradeFilter (r, b) lv).1.1 ∧
    (drainLevels upgradeFilter (r, b) lv).1.2 = b ∧
    (∀ x, x ∈ (drainLevels upgradeFilter (r, b) lv).1.1 → x ∈ r) ∧
    (∀ k, valCount (drainLevels upgradeFilter (r, b) lv).1.1 k
        + ((drainLevels upgradeFilter (r, b) lv).2.2).count k = valCount r k) ∧
    (∀ x : Nat × K, x ∈ r → drainedCount lv x.1 = 0 →
        x ∈ (drainLevels upgradeFilter (r, b) lv).1.1) ∧
    (∀ id k, (id, k) ∈ r → 0 < drainedCount lv id →
        valCount (drainLevels upgradeFilter (r, b) lv).1.1 k = 0) := by
  intro lv
  induction lv with
  | nil =>
    intro r b hInv
    refine ⟨hInv, rfl, fun x hx => hx, fun k => by simp [drainLevels, valCount],
      fun x hx _ => hx, fun id k _ h => by simp [drainedCount] at h⟩
  | cons hd rest ih =>
    intro r b hInv
    obtain ⟨slots, c⟩ := hd
    obtain ⟨u1, u2, u3, u4, u5, u6⟩ :=
      upgradeFilter_spec (slots.getD ((c + 1) % slots.length) []) r b hInv
    have hpr : (upgradeFilter (r, b) (slots.getD ((c + 1) % slots.length) [])).1
        = ((upgradeFilter (r, b) (slots.getD ((c + 1) % slots.length) [])).1.1, b) :=
      Prod.ext rfl u2
    simp only [drainLevels, drainedCount]
    by_cases h0 : (c + 1) % slots.length = 0
    · obtain ⟨i1, i2, i3, i4, i5, i6⟩ :=
        ih (upgradeFilter (r, b) (slots.getD ((c + 1) % slots.length) [])).1.1 b u1
      simp only [h0, eq_self_iff_true, if_true] at u3 u4 u5 u6 hpr i1 i2 i3 i4 i5 i6 ⊢
      rw [hpr]
      refine ⟨i1, i2, ?_, ?_, ?_, ?_⟩
      · intro x hx
        exact u3 x (i3 x hx)
      · intro k
        have hu := u4 k
        have hi := i4 k
        rw [List.count_append]
        omega
      · intro x hx hdc
        have hes : (slots.getD 0 []).count x.1 = 0 := by omega
        have hdr : drainedCount rest x.1 = 0 := by omega
        refine i5 x (u5 x hx ?_) hdr
        intro i hi hix
        have : 0 < (slots.getD 0 []).count x.1 := by
          rw [hix] at hi
          exact List.count_pos_iff.2 hi
        omega
      · intro id k hmem hdc
        by_cases hes : 0 < (slots.getD 0 []).count id
        · have hid : id ∈ slots.getD 0 [] := List.count_pos_iff.1 hes
          have hv0 := u6 id k hmem hid
          have hi := i4 k
          omega
        · have hcnt : (slots.getD 0 []).count id = 0 := by omega
          have hdr : 0 < drainedCount rest id := by omega
          have hmem2 : (id, k)
              ∈ (upgradeFilter (r, b) (slots.getD 0 [])).1.1 := by
            refine u5 (id, k) hmem ?_
            intro i hi hix
            have : 0 < (slots.getD 0 []).count id := by
              rw [hix] at hi
              exact List.count_pos_iff.2 hi
            omega
          exact i6 id k hmem2 hdr
    · simp only [if_neg h0]
      refine ⟨u1, u2, u3, ?_, ?_, ?_⟩
      · intro k
        exact u4 k
      · intro x hx hdc
        simp only [Nat.add_zero] at hdc
        refine u5 x hx ?_
        intro i hi hix
        have : 0 < (slots.getD ((c + 1) % slots.length) []).count x.1 := by
          rw [hix] at hi
          exact List.count_pos_iff.2 hi
        omega
      · intro id k hmem hdc
        simp only [Nat.add_zero] at hdc
        exact u6 id k hmem (List.count_pos_iff.1 hdc)

/-! ### Placement -/

/-- The successful branch of `insert` in both variants: clamp the slot
count to the level capacity and append the entry at
`(cursor + slot) % capacity`. -/
def placeLevel {E : Type} (lv : Levels E) (wi : Nat) (e : E) (slot : Nat) : Levels E :=
  let l := lv.getD wi ([], 0)
  let maxSlot := l.1.length
  let slot2 := if slot > maxSlot then maxSlot else slot
  let slotIndex := (l.2 + slot2) % maxSlot
  lv.set wi (l.1.set slotIndex (l.1.getD slotIndex [] ++ [e]), l.2)

/-- The slot index at which `placeLevel` deposits its entry. -/
def placeIndex {E : Type} (lv : Levels E) (wi : Nat) (slot : Nat) : Nat :=
  let l := lv.getD wi ([], 0)
  let maxSlot := l.1.length
  let slot2 := if slot > maxSlot then maxSlot else slot
  (l.2 + slot2) % maxSlot

theorem insertC_eq (w : CopyWheel K) (k : K) (res : Resolution) (u : Nat) :
    insertC w k res u =
      if u = 1 then none
      else
        match rposition w.resolutions res with
        | none => none
        | some wi => some { w with levels := placeLevel w.levels wi k u } := by
  rfl

theorem insertA_eq (w : AllocWheel K) (id : Nat) (res : Resolution) (u : Nat) :
    insertA w id res u =
      if u = 1 then none
      else
        match rposition w.resolutions res with
        | none => none
        | some wi => some { w with levels := placeLevel w.levels wi id u } := by
  rfl

section PlaceFacts

variable {E : Type} [DecidableEq E]

theorem placeLevel_cons_succ (hd : List (List E) × Nat) (rest : Levels E) (wi : Nat)
    (e : E) (u : Nat) :
    placeLevel (hd :: rest) (wi + 1) e u = hd :: placeLevel rest wi e u := by
  simp [placeLevel, List.getD_cons_succ, List.set_cons_succ]

theorem placeLevel_nil (wi : Nat) (e : E) (u : Nat) : placeLevel ([] : Levels E) wi e u = [] := by
  simp [placeLevel]

theorem sizesOfLv_place : ∀ (lv : Levels E) (wi : Nat) (e : E) (u : Nat),
    sizesOfLv (placeLevel lv wi e u) = sizesOfLv lv := by
  intro lv
  induction lv with
  | nil => intro wi e u; rw [placeLevel_nil]
  | cons hd rest ih =>
    intro wi e u
    cases wi with
    | zero =>
      simp only [placeLevel, List.getD_cons_zero, List.set_cons_zero, sizesOfLv,
        List.map_cons, List.length_set]
    | succ wj =>
      rw [placeLevel_cons_succ]
      simp only [sizesOfLv, List.map_cons]
      rw [show List.map (fun l => l.1.length) (placeLevel rest wj e u)
          = sizesOfLv (placeLevel rest wj e u) from rfl, ih]
      rfl

theorem cursorsOf_place : ∀ (lv : Levels E) (wi : Nat) (e : E) (u : Nat),
    cursorsOf (placeLevel lv wi e u) = cursorsOf lv := by
  intro lv
  induction lv with
  | nil => intro wi e u; rw [placeLevel_nil]
  | cons hd rest ih =>
    intro wi e u
    cases wi with
    | zero =>
      simp only [placeLevel, List.getD_cons_zero, List.set_cons_zero, cursorsOf, List.map_cons]
    | succ wj =>
      rw [placeLevel_cons_succ]
      simp only [cursorsOf, List.map_cons]
      rw [show List.map (fun l => l.2) (placeLevel rest wj e u)
          = cursorsOf (placeLevel rest wj e u) from rfl, ih]
      rfl

theorem slotSum_set_at : ∀ (slots : List (List E)) (si : Nat) (x : List E) (e' : E),
    si < slots.length →
    slotSum (slots.set si x) e' + (slots.getD si []).count e' = slotSum slots e' + x.count e' := by
  intro slots
  induction slots with
  | nil => intro si x e' h; simp at h
  | cons s ss ih =>
    intro si x e' h
    cases si with
    | zero => simp [slotSum, List.getD_cons_zero]; omega
    | succ sj =>
      have := ih sj x e' (by simpa using h)
      simp only [slotSum, List.set_cons_succ, List.map_cons, List.sum_cons,
        List.getD_cons_succ] at *
      omega

theorem totalCount_place : ∀ (lv : Levels E) (wi : Nat) (e e' : E) (u : Nat),
    wi < lv.length → 0 < (lv.getD wi ([], 0)).1.length →
    totalCount (placeLevel lv wi e u) e'
      = totalCount lv e' + if e = e' then 1 else 0 := by
  intro lv
  induction lv with
  | nil => intro wi e e' u h _; simp at h
  | cons hd rest ih =>
    intro wi e e' u hwi hcap
    cases wi with
    | zero =>
      simp only [List.getD_cons_zero] at hcap
      have hsi : (hd.2 + if u > hd.1.length then hd.1.length else u) % hd.1.length
          < hd.1.length := Nat.mod_lt _ hcap
      have hset := slotSum_set_at hd.1
        ((hd.2 + if u > hd.1.length then hd.1.length else u) % hd.1.length)
        ((hd.1.getD ((hd.2 + if u > hd.1.length then hd.1.length else u) % hd.1.length) [])
          ++ [e]) e' hsi
      simp only [placeLevel, List.getD_cons_zero, List.set_cons_zero, totalCount,
        List.map_cons, List.sum_cons]
      simp only [slotSum, List.count_append, List.count_cons, List.count_nil] at hset
      by_cases hee : e = e'
      · subst hee
        simp only [eq_self_iff_true, if_true]
        simp only [beq_self_eq_true, if_true] at hset
        omega
      · have hb : (e == e') = false := by simp [hee]
        simp only [if_neg hee]
        simp only [hb, Bool.false_eq_true, if_false] at hset
        omega
    | succ wj =>
      rw [placeLevel_cons_succ]
      have := ih wj e e' u (by simpa using hwi) (by simpa using hcap)
      simp only [totalCount, List.map_cons, List.sum_cons] at *
      omega

theorem slotAt_place_self : ∀ (lv : Levels E) (wi : Nat) (e : E) (u : Nat),
    wi < lv.length → 0 < (lv.getD wi ([], 0)).1.length →
    slotAt (placeLevel lv wi e u) wi (placeIndex lv wi u)
      = slotAt lv wi (placeIndex lv wi u) ++ [e] := by
  intro lv
  induction lv with
  | nil => intro wi e u h _; simp at h
  | cons hd rest ih =>
    intro wi e u hwi hcap
    cases wi with
    | zero =>
      simp only [List.getD_cons_zero] at hcap
      have hsi : placeIndex (hd :: rest) 0 u < hd.1.length := by
        simp only [placeIndex, List.getD_cons_zero]
        exact Nat.mod_lt _ hcap
      simp only [placeLevel, placeIndex, List.getD_cons_zero, List.set_cons_zero, slotAt]
      rw [List.getD_eq_getElem?_getD, List.getElem?_set_self
        (by simpa [placeIndex, List.getD_cons_zero] using hsi)]
      simp [List.getD_eq_getElem?_getD]
    | succ wj =>
      have hpi : placeIndex (hd :: rest) (wj + 1) u = placeIndex rest wj u := by
        simp [placeIndex, List.getD_cons_succ]
      rw [placeLevel_cons_succ, hpi]
      simp only [slotAt, List.getD_cons_succ]
      have := ih wj e u (by simpa using hwi) (by simpa using hcap)
      simpa [slotAt] using this

theorem slotAt_place_count_ne : ∀ (lv : Levels E) (wi : Nat) (e e' : E) (u L p : Nat),
    e' ≠ e → (slotAt (placeLevel lv wi e u) L p).count e' = (slotAt lv L p).count e' := by
  intro lv
  induction lv with
  | nil => intro wi e e' u L p _; rw [placeLevel_nil]
  | cons hd rest ih =>
    intro wi e e' u L p hne
    cases wi with
    | zero =>
      cases L with
      | zero =>
        simp only [placeLevel, List.getD_cons_zero, List.set_cons_zero, slotAt]
        by_cases hp : p = (hd.2 + if u > hd.1.length then hd.1.length else u) % hd.1.length
        · rw [hp]
          by_cases hlt : (hd.2 + if u > hd.1.length then hd.1.length else u) % hd.1.length
              < hd.1.length
          · rw [List.getD_eq_getElem?_getD, List.getElem?_set_self hlt]
            simp only [Option.getD_some, List.count_append]
            have h1 : ([e].count e') = 0 := by simp [hne]
            rw [h1, List.getD_eq_getElem?_getD]
            omega
          · rw [List.set_eq_of_length_le (Nat.le_of_not_lt hlt)]
        · simp only [List.getD_eq_getElem?_getD]
          rw [List.getElem?_set_ne (fun h => hp h.symm)]
      | succ Lj =>
        simp only [placeLevel, List.getD_cons_zero, List.set_cons_zero, slotAt,
          List.getD_cons_succ]
    | succ wj =>
      rw [placeLevel_cons_succ]
      cases L with
      | zero => simp only [slotAt, List.getD_cons_zero]
      | succ Lj =>
        simp only [slotAt, List.getD_cons_succ]
        have := ih wj e e' u Lj p hne
        simpa [slotAt] using this

end PlaceFacts

/-- The order in which the `or_else` chain of `start` tries the levels
(coarsest first), in both variants. -/
def levelOrder : List Resolution := [.Hour, .Min, .Sec, .HundredMs, .TenMs, .Ms]

/-- The `or_else` chain of `CopyWheel::start`, as a fold over the levels. -/
def tryInsertC (w0 : CopyWheel K) (k : K) (d : Nat) : List Resolution → CopyWheel K
  | [] => w0
  | res :: rest =>
    match insertC w0 k res (unitsC res d) with
    | some w1 => w1
    | none => tryInsertC w0 k d rest

theorem startC_eq_try (w : CopyWheel K) (k : K) (d : Nat) :
    startC w k d = tryInsertC { w with keys := insertKey w.keys k } k d levelOrder := rfl

/-- The `or_else` chain of `AllocWheel::start`. -/
def tryInsertA (w0 : AllocWheel K) (id : Nat) (d : Nat) : List Resolution → AllocWheel K
  | [] => w0
  | res :: rest =>
    match insertA w0 id res (unitsA res d) with
    | some w1 => w1
    | none => tryInsertA w0 id d rest

theorem startA_eq_try (w : AllocWheel K) (k : K) (d : Nat) :
    startA w k d = tryInsertA { w with
        keys := if w.keys.any (fun e => e.2 = k) then w.keys else w.keys ++ [(w.nextId, k)],
        nextId := w.nextId + 1 } w.nextId d levelOrder := rfl

/-- Acceptance test of one placement attempt: the level is configured and
the computed unit count is not 1. -/
def acceptB (rs : List Resolution) (d : Nat) (units : Resolution → Nat → Nat)
    (res : Resolution) : Bool :=
  decide (units res d ≠ 1) && decide (rposition rs res ≠ none)

/-- The wheel state after a successful placement at level `res` (copy). -/
def placedC (w0 : CopyWheel K) (k : K) (d : Nat) (res : Resolution) : CopyWheel K :=
  { w0 with
    levels := placeLevel w0.levels ((rposition w0.resolutions res).getD 0) k (unitsC res d) }

/-- The wheel state after a successful placement at level `res` (alloc). -/
def placedA (w0 : AllocWheel K) (id : Nat) (d : Nat) (res : Resolution) : AllocWheel K :=
  { w0 with
    levels := placeLevel w0.levels ((rposition w0.resolutions res).getD 0) id (unitsA res d) }

theorem tryInsertC_char (w0 : CopyWheel K) (k : K) (d : Nat) : ∀ (l : List Resolution),
    tryInsertC w0 k d l =
      match l.find? (acceptB w0.resolutions d unitsC) with
      | none => w0
      | some res => placedC w0 k d res := by
  intro l
  induction l with
  | nil => rfl
  | cons res rest ih =>
    simp only [tryInsertC, insertC_eq]
    by_cases hu : unitsC res d = 1
    · have hb : acceptB w0.resolutions d unitsC res = false := by simp [acceptB, hu]
      simp only [if_pos hu, List.find?_cons, hb]
      exact ih
    · cases hr : rposition w0.resolutions res with
      | none =>
        have hb : acceptB w0.resolutions d unitsC res = false := by simp [acceptB, hr]
        simp only [if_neg hu, hr, List.find?_cons, hb]
        exact ih
      | some wi =>
        have hb : acceptB w0.resolutions d unitsC res = true := by simp [acceptB, hu, hr]
        simp only [if_neg hu, hr, List.find?_cons, hb, Option.getD_some]
        simp [placedC, hr]

theorem tryInsertA_char (w0 : AllocWheel K) (id : Nat) (d : Nat) : ∀ (l : List Resolution),
    tryInsertA w0 id d l =
      match l.find? (acceptB w0.resolutions d unitsA) with
      | none => w0
      | some res => placedA w0 id d res := by
  intro l
  induction l with
  | nil => rfl
  | cons res rest ih =>
    simp only [tryInsertA, insertA_eq]
    by_cases hu : unitsA res d = 1
    · have hb : acceptB w0.resolutions d unitsA res = false := by simp [acceptB, hu]
      simp only [if_pos hu, List.find?_cons, hb]
      exact ih
    · cases hr : rposition w0.resolutions res with
      | none =>
        have hb : acceptB w0.resolutions d unitsA res = false := by simp [acceptB, hr]
        simp only [if_neg hu, hr, List.find?_cons, hb]
        exact ih
      | some wi =>
        have hb : acceptB w0.resolutions d unitsA res = true := by simp [acceptB, hu, hr]
        simp only [if_neg hu, hr, List.find?_cons, hb, Option.getD_some]
        simp [placedA, hr]

/-! ### Fresh wheels and iterated expiry -/

theorem newLevels_sizes (E : Type) (sizes : List Nat) :
    sizesOfLv (newLevels E sizes) = sizes := by
  induction sizes with
  | nil => rfl
  | cons s ss ih => simp [newLevels, sizesOfLv, List.length_replicate] at *; exact ih

theorem newLevels_shape (E : Type) (sizes : List Nat) :
    Shaped sizes 0 (newLevels E sizes) := by
  constructor
  · exact newLevels_sizes E sizes
  · rw [digits_zero]
    induction sizes with
    | nil => rfl
    | cons s ss ih => simp [newLevels, cursorsOf, List.replicate] at *; exact ih

theorem newLevels_empty {E : Type} [DecidableEq E] (sizes : List Nat) (e : E) :
    totalCount (newLevels E sizes) e = 0 := by
  induction sizes with
  | nil => rfl
  | cons s ss ih =>
    simp only [newLevels, totalCount, List.map_cons, List.sum_cons] at *
    have : (List.map (fun es => es.count e) (List.replicate s ([] : List E))).sum = 0 := by
      induction s with
      | zero => rfl
      | succ t iht => simpa [List.replicate] using iht
    omega

theorem expireC_parts (w : CopyWheel K) :
    (expireC w).1.resolutions = w.resolutions ∧
    (expireC w).1.keys = (drainLevels filterRemove w.keys w.levels).1 ∧
    (expireC w).1.levels = (drainLevels filterRemove w.keys w.levels).2.1 ∧
    (expireC w).2 = (drainLevels filterRemove w.keys w.levels).2.2 :=
  ⟨rfl, rfl, rfl, rfl⟩

theorem expireA_parts (w : AllocWheel K) :
    (expireA w).1.resolutions = w.resolutions ∧
    (expireA w).1.keys = (drainLevels upgradeFilter (w.keys, w.fail) w.levels).1.1 ∧
    (expireA w).1.fail = (drainLevels upgradeFilter (w.keys, w.fail) w.levels).1.2 ∧
    (expireA w).1.levels = (drainLevels upgradeFilter (w.keys, w.fail) w.levels).2.1 ∧
    (expireA w).2 = (drainLevels upgradeFilter (w.keys, w.fail) w.levels).2.2 :=
  ⟨rfl, rfl, rfl, rfl, rfl⟩

/-! ### Single-timer runs -/

theorem tickC_succ (w : CopyWheel K) (t : Nat) : tickC w (t + 1) = (expireC (tickC w t)).1 := rfl

theorem tickC_keys_count_le (w : CopyWheel K) : ∀ (t : Nat) (x : K),
    (tickC w t).keys.count x ≤ w.keys.count x := by
  intro t
  induction t with
  | zero => intro x; exact Nat.le_refl _
  | succ t ih =>
    intro x
    have h := (drainC_count (tickC w t).levels (tickC w t).keys x).2
    calc (tickC w (t + 1)).keys.count x
        ≤ (tickC w t).keys.count x := by
          rw [tickC_succ]
          show ((drainLevels filterRemove (tickC w t).keys (tickC w t).levels).1).count x ≤ _
          omega
      _ ≤ w.keys.count x := ih x

theorem outC_count_le (w : CopyWheel K) (t : Nat) (x : K) :
    (outC w t).count x ≤ (tickC w t).keys.count x := by
  have h := (drainC_count (tickC w t).levels (tickC w t).keys x).1
  show ((drainLevels filterRemove (tickC w t).keys (tickC w t).levels).2.2).count x ≤ _
  omega

/-- The status of one armed key along the run of a copy wheel: the key
stays in its slot and in the registry until precisely the `fire`-th call,
which returns it once; afterwards it is gone for good. -/
theorem runC_single (sz : List Nat) (L p fire : Nat) (k : K) (hpos : AllPos sz)
    (t0 : Nat) (w : CopyWheel K)
    (hS : Shaped sz t0 w.levels)
    (hk : w.keys.count k = 1)
    (htc : totalCount w.levels k = 1)
    (hsl : (slotAt w.levels L p).count k = 1)
    (hhit : ∀ t, t ≤ fire → (hitB sz L p (t0 + t + 1) = true ↔ t = fire)) :
    (∀ t, Shaped sz (t0 + t) (tickC w t).levels ∧
      (tickC w t).keys.count k = (if t ≤ fire then 1 else 0) ∧
      totalCount (tickC w t).levels k = (if t ≤ fire then 1 else 0) ∧
      (t ≤ fire → (slotAt (tickC w t).levels L p).count k = 1)) ∧
    (∀ t, (outC w t).count k = (if t = fire then 1 else 0)) := by
  have hstat : ∀ t, Shaped sz (t0 + t) (tickC w t).levels ∧
      (tickC w t).keys.count k = (if t ≤ fire then 1 else 0) ∧
      totalCount (tickC w t).levels k = (if t ≤ fire then 1 else 0) ∧
      (t ≤ fire → (slotAt (tickC w t).levels L p).count k = 1) := by
    intro t
    induction t with
    | zero =>
      refine ⟨by simpa using hS, ?_, ?_, fun _ => hsl⟩
      · simp only [Nat.zero_le, if_pos]; exact hk
      · simp only [Nat.zero_le, if_pos]; exact htc
    | succ t ih =>
      obtain ⟨iS, ik, itc, isl⟩ := ih
      have hshape : Shaped sz (t0 + t + 1) (tickC w (t + 1)).levels := by
        rw [tickC_succ]
        exact drainLevels_shape _ _ sz (t0 + t) _ hpos iS
      have hkeys := (drainC_count (tickC w t).levels (tickC w t).keys k).2
      have houtc := (drainC_count (tickC w t).levels (tickC w t).keys k).1
      have htcd := totalCount_drain filterRemove (tickC w t).levels (tickC w t).keys k
      by_cases hle : t ≤ fire
      · have hdc : drainedCount (tickC w t).levels k
            = if hitB sz L p (t0 + t + 1) = true then 1 else 0 :=
          drainedCount_unique (tickC w t).levels sz (t0 + t) L p k hpos iS
            (by rw [itc, if_pos hle]) (isl hle)
        by_cases hfe : t = fire
        · subst hfe
          have hhit1 : hitB sz L p (t0 + t + 1) = true := (hhit t (Nat.le_refl _)).2 rfl
          rw [hhit1] at hdc
          simp only [eq_self_iff_true, if_true] at hdc
          have hnle : ¬ (t + 1 ≤ t) := by omega
          refine ⟨by simpa [Nat.add_assoc] using hshape, ?_, ?_, fun h => absurd h hnle⟩
          · rw [if_neg hnle, tickC_succ]
            show ((drainLevels filterRemove (tickC w t).keys (tickC w t).levels).1).count k = 0
            rw [ik] at hkeys houtc
            simp only [le_refl, if_true] at hkeys houtc
            omega
          · rw [if_neg hnle, tickC_succ]
            show totalCount
              ((drainLevels filterRemove (tickC w t).keys (tickC w t).levels).2.1) k = 0
            rw [itc] at htcd
            simp only [le_refl, if_true] at htcd
            omega
        · have hlt : t < fire := Nat.lt_of_le_of_ne hle hfe
          have hhit0 : hitB sz L p (t0 + t + 1) = false := by
            cases hb : hitB sz L p (t0 + t + 1) with
            | false => rfl
            | true => exact absurd ((hhit t hle).1 hb) hfe
          rw [hhit0] at hdc
          simp only [Bool.false_eq_true, if_false] at hdc
          have hle1 : t + 1 ≤ fire := hlt
          refine ⟨by simpa [Nat.add_assoc] using hshape, ?_, ?_, ?_⟩
          · rw [if_pos hle1, tickC_succ]
            show ((drainLevels filterRemove (tickC w t).keys (tickC w t).levels).1).count k = 1
            rw [ik, if_pos hle] at hkeys houtc
            omega
          · rw [if_pos hle1, tickC_succ]
            show totalCount
              ((drainLevels filterRemove (tickC w t).keys (tickC w t).levels).2.1) k = 1
            rw [itc, if_pos hle] at htcd
            omega
          · intro _
            rw [tickC_succ]
            show (slotAt
              ((drainLevels filterRemove (tickC w t).keys (tickC w t).levels).2.1) L p).count k
              = 1
            rw [slotAt_drain_eq filterRemove (tickC w t).levels sz (t0 + t) L p
              (tickC w t).keys hpos iS hhit0]
            exact isl hle
      · have hnle1 : ¬ (t + 1 ≤ fire) := by omega
        have hdc0 : drainedCount (tickC w t).levels k = 0 := by
          have := drainedCount_le_total (tickC w t).levels k
          rw [itc, if_neg hle] at this
          omega
        refine ⟨by simpa [Nat.add_assoc] using hshape, ?_, ?_, fun h => absurd h hnle1⟩
        · rw [if_neg hnle1, tickC_succ]
          show ((drainLevels filterRemove (tickC w t).keys (tickC w t).levels).1).count k = 0
          rw [ik, if_neg hle] at hkeys houtc
          omega
        · rw [if_neg hnle1, tickC_succ]
          show totalCount
            ((drainLevels filterRemove (tickC w t).keys (tickC w t).levels).2.1) k = 0
          rw [itc, if_neg hle] at htcd
          omega
  refine ⟨hstat, ?_⟩
  intro t
  obtain ⟨iS, ik, itc, isl⟩ := hstat t
  have houtc := (drainC_count (tickC w t).levels (tickC w t).keys k).1
  have hout : (outC w t).count k
      = min ((tickC w t).keys.count k) (drainedCount (tickC w t).levels k) := houtc
  by_cases hle : t ≤ fire
  · have hdc : drainedCount (tickC w t).levels k
        = if hitB sz L p (t0 + t + 1) = true then 1 else 0 :=
      drainedCount_unique (tickC w t).levels sz (t0 + t) L p k hpos iS
        (by rw [itc, if_pos hle]) (isl hle)
    by_cases hfe : t = fire
    · subst hfe
      have hhit1 : hitB sz L p (t0 + t + 1) = true := (hhit t (Nat.le_refl _)).2 rfl
      rw [hhit1] at hdc
      simp only [eq_self_iff_true, if_true] at hdc
      rw [if_pos rfl, hout, hdc, ik]
      simp only [le_refl, if_true]
      simp
    · have hhit0 : hitB sz L p (t0 + t + 1) = false := by
        cases hb : hitB sz L p (t0 + t + 1) with
        | false => rfl
        | true => exact absurd ((hhit t hle).1 hb) hfe
      rw [hhit0] at hdc
      simp only [Bool.false_eq_true, if_false] at hdc
      rw [if_neg hfe, hout, hdc]
      omega
  · have hdc0 : drainedCount (tickC w t).levels k = 0 := by
      have := drainedCount_le_total (tickC w t).levels k
      rw [itc, if_neg hle] at this
      omega
    have hfe : t ≠ fire := by omega
    rw [if_neg hfe, hout, hdc0]
    omega

theorem tickA_succ (w : AllocWheel K) (t : Nat) : tickA w (t + 1) = (expireA (tickA w t)).1 := rfl

/-- The status of one armed key along the run of an alloc wheel.  The
registry invariant (distinct ids, distinct values) travels with the run;
the strong reference `(id, k)` and the weak slot entry `id` survive until
the `fire`-th call, which returns `k` exactly once. -/
theorem runA_single (sz : List Nat) (L p fire : Nat) (id : Nat) (k : K) (hpos : AllPos sz)
    (t0 : Nat) (w : AllocWheel K)
    (hS : Shaped sz t0 w.levels)
    (hInv : RegInv w.keys)
    (hmem : (id, k) ∈ w.keys)
    (htc : totalCount w.levels id = 1)
    (hsl : (slotAt w.levels L p).count id = 1)
    (hhit : ∀ t, t ≤ fire → (hitB sz L p (t0 + t + 1) = true ↔ t = fire)) :
    (∀ t, Shaped sz (t0 + t) (tickA w t).levels ∧ RegInv (tickA w t).keys ∧
      (t ≤ fire → ((id, k) ∈ (tickA w t).keys ∧
        totalCount (tickA w t).levels id = 1 ∧
        (slotAt (tickA w t).levels L p).count id = 1)) ∧
      (¬ t ≤ fire → valCount (tickA w t).keys k = 0)) ∧
    (∀ t, (outA w t).count k = (if t = fire then 1 else 0)) := by
  have hvalone : ∀ (r : List (Nat × K)), RegInv r → (id, k) ∈ r → valCount r k = 1 := by
    intro r hI hm
    have hle : valCount r k ≤ 1 := List.nodup_iff_count_le_one.1 hI.2 k
    have hge : 0 < valCount r k :=
      List.count_pos_iff.2 (List.mem_map.2 ⟨(id, k), hm, rfl⟩)
    omega
  have hstat : ∀ t, Shaped sz (t0 + t) (tickA w t).levels ∧ RegInv (tickA w t).keys ∧
      (t ≤ fire → ((id, k) ∈ (tickA w t).keys ∧
        totalCount (tickA w t).levels id = 1 ∧
        (slotAt (tickA w t).levels L p).count id = 1)) ∧
      (¬ t ≤ fire → valCount (tickA w t).keys k = 0) := by
    intro t
    induction t with
    | zero =>
      exact ⟨by simpa using hS, hInv, fun _ => ⟨hmem, htc, hsl⟩,
        fun h => absurd (Nat.zero_le _) h⟩
    | succ t ih =>
      obtain ⟨iS, iI, iarm, idead⟩ := ih
      obtain ⟨a1, a2, a3, a4, a5, a6⟩ := drainA_spec (tickA w t).levels (tickA w t).keys
        (tickA w t).fail iI
      have hshape : Shaped sz (t0 + t + 1) (tickA w (t + 1)).levels := by
        rw [tickA_succ]
        exact drainLevels_shape _ _ sz (t0 + t) _ hpos iS
      have htcd := totalCount_drain upgradeFilter (K := K)
        (tickA w t).levels ((tickA w t).keys, (tickA w t).fail) id
      refine ⟨by simpa [Nat.add_assoc] using hshape, by rw [tickA_succ]; exact a1, ?_, ?_⟩
      · intro hle1
        have hle : t ≤ fire := by omega
        have hfe : t ≠ fire := by omega
        obtain ⟨im, itc, isl⟩ := iarm hle
        have hhit0 : hitB sz L p (t0 + t + 1) = false := by
          cases hb : hitB sz L p (t0 + t + 1) with
          | false => rfl
          | true => exact absurd ((hhit t hle).1 hb) hfe
        have hdc : drainedCount (tickA w t).levels id = 0 := by
          have := drainedCount_unique (tickA w t).levels sz (t0 + t) L p id hpos iS itc isl
          rw [hhit0] at this
          simpa using this
        refine ⟨?_, ?_, ?_⟩
        · rw [tickA_succ]
          exact a5 (id, k) im hdc
        · rw [tickA_succ]
          show totalCount ((drainLevels upgradeFilter
            ((tickA w t).keys, (tickA w t).fail) (tickA w t).levels).2.1) id = 1
          omega
        · rw [tickA_succ]
          show (slotAt ((drainLevels upgradeFilter
            ((tickA w t).keys, (tickA w t).fail) (tickA w t).levels).2.1) L p).count id = 1
          rw [slotAt_drain_eq upgradeFilter (tickA w t).levels sz (t0 + t) L p
            ((tickA w t).keys, (tickA w t).fail) hpos iS hhit0]
          exact isl
      · intro hnle1
        by_cases hle : t ≤ fire
        · have hfe : t = fire := by omega
          subst hfe
          obtain ⟨im, itc, isl⟩ := iarm hle
          have hhit1 : hitB sz L p (t0 + t + 1) = true := (hhit t (Nat.le_refl _)).2 rfl
          have hdc : drainedCount (tickA w t).levels id = 1 := by
            have := drainedCount_unique (tickA w t).levels sz (t0 + t) L p id hpos iS itc isl
            rw [hhit1] at this
            simpa using this
          rw [tickA_succ]
          exact a6 id k im (by omega)
        · have hd := idead hle
          have := a4 k
          rw [tickA_succ]
          show valCount ((drainLevels upgradeFilter
            ((tickA w t).keys, (tickA w t).fail) (tickA w t).levels).1.1) k = 0
          omega
  refine ⟨hstat, ?_⟩
  intro t
  obtain ⟨iS, iI, iarm, idead⟩ := hstat t
  obtain ⟨a1, a2, a3, a4, a5, a6⟩ := drainA_spec (tickA w t).levels (tickA w t).keys
    (tickA w t).fail iI
  have hout4 := a4 k
  have houteq : (outA w t).count k
      = valCount (tickA w t).keys k
        - valCount ((drainLevels upgradeFilter
            ((tickA w t).keys, (tickA w t).fail) (tickA w t).levels).1.1) k := by
    show ((drainLevels upgradeFilter
      ((tickA w t).keys, (tickA w t).fail) (tickA w t).levels).2.2).count k = _
    omega
  by_cases hle : t ≤ fire
  · obtain ⟨im, itc, isl⟩ := iarm hle
    have hv1 : valCount (tickA w t).keys k = 1 := hvalone _ iI im
    by_cases hfe : t = fire
    · subst hfe
      have hhit1 : hitB sz L p (t0 + t + 1) = true := (hhit t (Nat.le_refl _)).2 rfl
      have hdc : drainedCount (tickA w t).levels id = 1 := by
        have := drainedCount_unique (tickA w t).levels sz (t0 + t) L p id hpos iS itc isl
        rw [hhit1] at this
        simpa using this
      have hv0 := a6 id k im (by omega)
      rw [if_pos rfl, houteq, hv1, hv0]
    · have hhit0 : hitB sz L p (t0 + t + 1) = false := by
        cases hb : hitB sz L p (t0 + t + 1) with
        | false => rfl
        | true => exact absurd ((hhit t hle).1 hb) hfe
      have hdc : drainedCount (tickA w t).levels id = 0 := by
        have := drainedCount_unique (tickA w t).levels sz (t0 + t) L p id hpos iS itc isl
        rw [hhit0] at this
        simpa using this
      have hsur : (id, k) ∈ (drainLevels upgradeFilter
          ((tickA w t).keys, (tickA w t).fail) (tickA w t).levels).1.1 :=
        a5 (id, k) im hdc
      have hvs : 0 < valCount ((drainLevels upgradeFilter
          ((tickA w t).keys, (tickA w t).fail) (tickA w t).levels).1.1) k :=
        List.count_pos_iff.2 (List.mem_map.2 ⟨(id, k), hsur, rfl⟩)
      rw [if_neg hfe, houteq, hv1]
      omega
  · have hd := idead hle
    have hfe : t ≠ fire := by omega
    rw [if_neg hfe, houteq, hd]
    omega

/-! ### When does a slot get drained?  Closed form of `hitB`. -/

theorem add_mod_left_mod (a u cap : Nat) : (a % cap + u) % cap = (a + u) % cap := by
  conv_lhs => rw [Nat.add_mod]
  conv_rhs => rw [Nat.add_mod]
  rw [Nat.mod_mod_of_dvd _ (dvd_refl cap)]

theorem mod_mul_eq_zero_iff (s P T : Nat) :
    T % (s * P) = 0 ↔ T % s = 0 ∧ (T / s) % P = 0 := by
  constructor
  · intro h
    have hd : s * P ∣ T := Nat.dvd_of_mod_eq_zero h
    have hsT : s ∣ T := dvd_trans (Dvd.intro P rfl) hd
    refine ⟨Nat.dvd_iff_mod_eq_zero.mp hsT, ?_⟩
    have hPd : P ∣ T / s := (Nat.dvd_div_iff_mul_dvd hsT).2 hd
    exact Nat.dvd_iff_mod_eq_zero.mp hPd
  · rintro ⟨h1, h2⟩
    have hsT : s ∣ T := Nat.dvd_of_mod_eq_zero h1
    have hP : P ∣ T / s := Nat.dvd_of_mod_eq_zero h2
    exact Nat.dvd_iff_mod_eq_zero.mp ((Nat.dvd_div_iff_mul_dvd hsT).1 hP)

theorem hitB_iff : ∀ (sz : List Nat) (L p T : Nat), L < sz.length →
    (hitB sz L p T = true ↔
      T % (sz.take L).prod = 0 ∧ (T / (sz.take L).prod) % sz.getD L 0 = p) := by
  intro sz
  induction sz with
  | nil => intro L p T h; simp at h
  | cons s ss ih =>
    intro L p T hL
    cases L with
    | zero =>
      simp [hitB, List.getD_cons_zero, Nat.mod_one]
    | succ L2 =>
      simp only [hitB, List.take_succ_cons, List.prod_cons, List.getD_cons_succ,
        Bool.and_eq_true, beq_iff_eq]
      rw [ih L2 p (T / s) (by simpa using hL)]
      rw [mod_mul_eq_zero_iff s (List.prod (List.take L2 ss)) T]
      rw [← Nat.div_div_eq_div_mul]
      constructor
      · rintro ⟨h1, h2, h3⟩
        exact ⟨⟨h1, h2⟩, h3⟩
      · rintro ⟨⟨h1, h2⟩, h3⟩
        exact ⟨h1, h2, h3⟩

/-- The unique tick, among the ticks up to it, at which the cursor of a
level with capacity `cap` and finer-level span `P` reaches the slot where
a timer of `u` units was placed at global tick count `t0`. -/
theorem fire_hit (P cap t0 u : Nat) (hP : 0 < P) (hcap : 0 < cap)
    (hu2 : 2 ≤ u) (hucap : u ≤ cap) (t : Nat) (ht : t ≤ u * P - t0 % P - 1) :
    ((t0 + t + 1) % P = 0 ∧ ((t0 + t + 1) / P) % cap = ((t0 / P) % cap + u) % cap)
      ↔ t = u * P - t0 % P - 1 := by
  have hd := Nat.div_add_mod t0 P
  have hblt : t0 % P < P := Nat.mod_lt _ hP
  have h2P : 2 * P ≤ u * P := Nat.mul_le_mul_right P hu2
  constructor
  · rintro ⟨h1, h2⟩
    have hdvd : P ∣ (t0 + t + 1) := Nat.dvd_of_mod_eq_zero h1
    have hT : P * ((t0 + t + 1) / P) = t0 + t + 1 := Nat.mul_div_cancel' hdvd
    have hub' : P * ((t0 + t + 1) / P) ≤ P * (t0 / P + u) := by
      rw [hT, Nat.mul_add]
      have hPu : P * u = u * P := Nat.mul_comm P u
      omega
    have hm_le : (t0 + t + 1) / P ≤ t0 / P + u := Nat.le_of_mul_le_mul_left hub' hP
    have hlb' : P * (t0 / P) < P * ((t0 + t + 1) / P) := by rw [hT]; omega
    have hm_gt : t0 / P < (t0 + t + 1) / P := Nat.lt_of_mul_lt_mul_left hlb'
    have hmod : ((t0 + t + 1) / P) % cap = (t0 / P + u) % cap := by
      rw [h2, add_mod_left_mod]
    have hdvd2 : cap ∣ (t0 / P + u - (t0 + t + 1) / P) :=
      (Nat.modEq_iff_dvd' hm_le).1 hmod
    have hsmall : t0 / P + u - (t0 + t + 1) / P < cap := by omega
    have hz : t0 / P + u - (t0 + t + 1) / P = 0 := Nat.eq_zero_of_dvd_of_lt hdvd2 hsmall
    have hm_eq : (t0 + t + 1) / P = t0 / P + u := by omega
    have hTfull : t0 + t + 1 = P * (t0 / P) + P * u := by
      rw [← hT, hm_eq, Nat.mul_add]
    have hPu : P * u = u * P := Nat.mul_comm P u
    omega
  · intro hteq
    subst hteq
    have hPu : P * u = u * P := Nat.mul_comm P u
    have h1 : t0 + (u * P - t0 % P - 1) + 1 = P * (t0 / P + u) := by
      rw [Nat.mul_add]
      omega
    rw [h1]
    refine ⟨Nat.mul_mod_right P _, ?_⟩
    rw [Nat.mul_div_cancel_left _ hP, add_mod_left_mod]

/-! ### Normalization and the size table -/

instance : Fintype Resolution :=
  ⟨⟨{.Ms, .TenMs, .HundredMs, .Sec, .Min, .Hour}, by decide⟩, fun x => by cases x <;> decide⟩

theorem ord_injective : ∀ a b : Resolution, a.ord = b.ord → a = b := by decide

theorem dedupAdj_cons : ∀ (l : List Resolution) (a : Resolution),
    ∃ l2, dedupAdj (a :: l) = a :: l2 := by
  intro l
  induction l with
  | nil => intro a; exact ⟨[], rfl⟩
  | cons b rest ih =>
    intro a
    by_cases hab : a = b
    · subst hab
      simpa [dedupAdj] using ih a
    · exact ⟨dedupAdj (b :: rest), by simp [dedupAdj, hab]⟩

theorem dedupAdj_chain : ∀ (l : List Resolution), l.Sorted resLE →
    List.Chain' (fun a b => a.ord < b.ord) (dedupAdj l) ∧
      (∀ r, r ∈ dedupAdj l ↔ r ∈ l) := by
  intro l
  induction l with
  | nil => intro _; exact ⟨List.chain'_nil, by simp [dedupAdj]⟩
  | cons r rest ih =>
    intro hsorted
    have hs1 := (List.sorted_cons.1 hsorted).1
    have hs2 := (List.sorted_cons.1 hsorted).2
    cases rest with
    | nil => exact ⟨by simp [dedupAdj], by simp [dedupAdj]⟩
    | cons s rest2 =>
      obtain ⟨ich, imem⟩ := ih hs2
      by_cases hrs : r = s
      · subst hrs
        refine ⟨by simpa [dedupAdj] using ich, ?_⟩
        intro x
        rw [show dedupAdj (r :: r :: rest2) = dedupAdj (r :: rest2) by simp [dedupAdj]]
        rw [imem x]
        simp
      · have hle : resLE r s := hs1 s (List.mem_cons_self _ _)
        have hlt : r.ord < s.ord :=
          Nat.lt_of_le_of_ne hle (fun h => hrs (ord_injective r s h))
        obtain ⟨l2, hl2⟩ := dedupAdj_cons rest2 s
        refine ⟨?_, ?_⟩
        · rw [show dedupAdj (r :: s :: rest2) = r :: dedupAdj (s :: rest2) by
            simp [dedupAdj, hrs]]
          rw [hl2]
          rw [hl2] at ich
          exact List.chain'_cons.2 ⟨hlt, ich⟩
        · intro x
          rw [show dedupAdj (r :: s :: rest2) = r :: dedupAdj (s :: rest2) by
            simp [dedupAdj, hrs]]
          simp only [List.mem_cons]
          rw [imem x]
          simp

theorem normalize_facts (rs : List Resolution) :
    List.Chain' (fun a b => a.ord < b.ord) (normalize rs) ∧
      (∀ r, r ∈ normalize rs ↔ r ∈ rs) := by
  have hsorted : (rs.insertionSort resLE).Sorted resLE := List.sorted_insertionSort resLE rs
  obtain ⟨h1, h2⟩ := dedupAdj_chain _ hsorted
  refine ⟨h1, fun r => ?_⟩
  show r ∈ dedupAdj (rs.insertionSort resLE) ↔ r ∈ rs
  rw [h2 r]
  exact (List.perm_insertionSort resLE rs).mem_iff

theorem normalize_ne_nil (rs : List Resolution) (h : rs ≠ []) : normalize rs ≠ [] := by
  cases hrs : rs.insertionSort resLE with
  | nil =>
    have hp := List.perm_insertionSort resLE rs
    rw [hrs] at hp
    exact absurd hp.nil_eq.symm h
  | cons a l =>
    obtain ⟨l2, hl2⟩ := dedupAdj_cons l a
    simp only [normalize, hrs, hl2]
    exact List.cons_ne_nil _ _

theorem sizeOfRes_ge_ten : ∀ (r : Resolution) (next : Option Resolution),
    10 ≤ sizeOfRes r next := by
  intro r next
  cases r <;> cases next <;> first
    | decide
    | (rename_i n; cases n <;> decide)

theorem sizesOf_ge_ten : ∀ (l : List Resolution) (s : Nat), s ∈ sizesOf l → 10 ≤ s := by
  intro l
  induction l with
  | nil => intro s hs; simp [sizesOf] at hs
  | cons r rest ih =>
    intro s hs
    simp only [sizesOf, List.mem_cons] at hs
    rcases hs with h | h
    · rw [h]; exact sizeOfRes_ge_ten r rest.head?
    · exact ih s h

theorem sizesOf_pos (l : List Resolution) : AllPos (sizesOf l) :=
  fun s hs => Nat.lt_of_lt_of_le (by norm_num) (sizesOf_ge_ten l s hs)

theorem sizesOf_length : ∀ (l : List Resolution), (sizesOf l).length = l.length := by
  intro l
  induction l with
  | nil => rfl
  | cons r rest ih => simp [sizesOf, ih]

/-! ### Tiling of adjacent levels (C5) -/

/-- Unit duration of a resolution, in nanoseconds. -/
def unitNs : Resolution → Nat
  | .Ms => 1000000
  | .TenMs => 10000000
  | .HundredMs => 100000000
  | .Sec => 1000000000
  | .Min => 60000000000
  | .Hour => 3600000000000

/-- The fixed maximum span of a terminal level, in nanoseconds:
one second for the sub-second levels, one minute for `Sec`, one hour for
`Min`, one day for `Hour`. -/
def maxSpanNs : Resolution → Nat
  | .Ms => 1000000000
  | .TenMs => 1000000000
  | .HundredMs => 1000000000
  | .Sec => 60000000000
  | .Min => 3600000000000
  | .Hour => 86400000000000

/-- The adjacent pairs of active resolutions for which the size table
actually tiles: no active gap may skip over `Sec` towards `Min`, nor over
`Min` towards `Hour`. -/
def gapOK (a b : Resolution) : Prop :=
  b.ord ≤ Resolution.ord .Sec ∨ (a = .Sec ∧ b = .Min) ∨ (a = .Min ∧ b = .Hour)

instance (a b : Resolution) : Decidable (gapOK a b) :=
  inferInstanceAs (Decidable (_ ∨ _ ∨ _))

theorem gap_pair_tile : ∀ a b : Resolution, a.ord < b.ord → gapOK a b →
    sizeOfRes a (some b) * unitNs a = unitNs b := by decide

theorem terminal_tile : ∀ a : Resolution, sizeOfRes a none * unitNs a = maxSpanNs a := by
  decide

theorem chain'_and {α : Type} {R S : α → α → Prop} :
    ∀ l : List α, List.Chain' R l → List.Chain' S l →
      List.Chain' (fun a b => R a b ∧ S a b) l := by
  intro l
  induction l with
  | nil => intro _ _; exact List.chain'_nil
  | cons a rest ih =>
    intro hR hS
    cases rest with
    | nil => exact List.chain'_singleton a
    | cons b rest2 =>
      obtain ⟨hR1, hR2⟩ := List.chain'_cons.1 hR
      obtain ⟨hS1, hS2⟩ := List.chain'_cons.1 hS
      exact List.chain'_cons.2 ⟨⟨hR1, hS1⟩, ih hR2 hS2⟩

theorem tile_of_chain : ∀ (l : List Resolution), l ≠ [] →
    List.Chain' (fun a b => a.ord < b.ord ∧ gapOK a b) l →
    (∀ i, i + 1 < l.length →
      (sizesOf l).getD i 0 * unitNs (l.getD i .Ms) = unitNs (l.getD (i + 1) .Ms)) ∧
    (sizesOf l).getD (l.length - 1) 0 * unitNs (l.getD (l.length - 1) .Ms)
      = maxSpanNs (l.getD (l.length - 1) .Ms) := by
  intro l
  induction l with
  | nil => intro h; exact absurd rfl h
  | cons r rest ih =>
    intro _ hchain
    cases rest with
    | nil =>
      refine ⟨fun i hi => by simp at hi, ?_⟩
      simp only [List.length_singleton, Nat.sub_self, sizesOf, List.getD_cons_zero,
        List.head?_nil]
      exact terminal_tile r
    | cons s rest2 =>
      obtain ⟨⟨hlt, hgap⟩, hch2⟩ := List.chain'_cons.1 hchain
      obtain ⟨ih1, ih2⟩ := ih (List.cons_ne_nil _ _) hch2
      constructor
      · intro i hi
        cases i with
        | zero =>
          simp only [sizesOf, List.getD_cons_zero, List.getD_cons_succ, List.head?_cons]
          exact gap_pair_tile r s hlt hgap
        | succ j =>
          have hj : j + 1 < (s :: rest2).length := by
            simp at hi ⊢
            omega
          have := ih1 j hj
          simpa [sizesOf, List.getD_cons_succ] using this
      · have hlen : (r :: s :: rest2).length - 1 = ((s :: rest2).length - 1) + 1 := by
          simp
        rw [hlen]
        simpa [sizesOf, List.getD_cons_succ] using ih2

/-! ### Auxiliary bridges -/

theorem tickC_res (w : CopyWheel K) : ∀ t, (tickC w t).resolutions = w.resolutions := by
  intro t
  induction t with
  | zero => rfl
  | succ t ih => rw [tickC_succ]; exact ih

theorem tickC_shape (w : CopyWheel K) (sz : List Nat) (n : Nat) (hpos : AllPos sz)
    (hS : Shaped sz n w.levels) : ∀ t, Shaped sz (n + t) (tickC w t).levels := by
  intro t
  induction t with
  | zero => simpa using hS
  | succ t ih =>
    have := drainLevels_shape filterRemove (tickC w t).levels sz (n + t) (tickC w t).keys
      hpos ih
    rw [tickC_succ]
    simpa [Nat.add_assoc] using this

theorem tickC_total_zero (w : CopyWheel K) (x : K) (h : totalCount w.levels x = 0) :
    ∀ t, totalCount (tickC w t).levels x = 0 := by
  intro t
  induction t with
  | zero => exact h
  | succ t ih =>
    have := totalCount_drain filterRemove (tickC w t).levels (tickC w t).keys x
    rw [tickC_succ]
    show totalCount ((drainLevels filterRemove (tickC w t).keys (tickC w t).levels).2.1) x = 0
    omega

theorem tickA_res (w : AllocWheel K) : ∀ t, (tickA w t).resolutions = w.resolutions := by
  intro t
  induction t with
  | zero => rfl
  | succ t ih => rw [tickA_succ]; exact ih

theorem tickA_nextId (w : AllocWheel K) : ∀ t, (tickA w t).nextId = w.nextId := by
  intro t
  induction t with
  | zero => rfl
  | succ t ih => rw [tickA_succ]; exact ih

theorem tickA_shape (w : AllocWheel K) (sz : List Nat) (n : Nat) (hpos : AllPos sz)
    (hS : Shaped sz n w.levels) : ∀ t, Shaped sz (n + t) (tickA w t).levels := by
  intro t
  induction t with
  | zero => simpa using hS
  | succ t ih =>
    have := drainLevels_shape upgradeFilter (K := K) (tickA w t).levels sz (n + t)
      ((tickA w t).keys, (tickA w t).fail) hpos ih
    rw [tickA_succ]
    simpa [Nat.add_assoc] using this

theorem tickA_total_zero (w : AllocWheel K) (x : Nat) (h : totalCount w.levels x = 0) :
    ∀ t, totalCount (tickA w t).levels x = 0 := by
  intro t
  induction t with
  | zero => exact h
  | succ t ih =>
    have := totalCount_drain upgradeFilter (K := K) (tickA w t).levels
      ((tickA w t).keys, (tickA w t).fail) x
    rw [tickA_succ]
    show totalCount ((drainLevels upgradeFilter
      ((tickA w t).keys, (tickA w t).fail) (tickA w t).levels).2.1) x = 0
    omega

/-- Registry invariant, value counts and the panic flag along an alloc run. -/
theorem tickA_inv (w : AllocWheel K) (hInv : RegInv w.keys) :
    ∀ t, RegInv (tickA w t).keys ∧ (∀ x, valCount (tickA w t).keys x ≤ valCount w.keys x) ∧
      (tickA w t).fail = w.fail ∧ (∀ x, x ∈ (tickA w t).keys → x ∈ w.keys) := by
  intro t
  induction t with
  | zero => exact ⟨hInv, fun x => Nat.le_refl _, rfl, fun x hx => hx⟩
  | succ t ih =>
    obtain ⟨i1, i2, i3, i4⟩ := ih
    obtain ⟨a1, a2, a3, a4, a5, a6⟩ := drainA_spec (tickA w t).levels (tickA w t).keys
      (tickA w t).fail i1
    refine ⟨by rw [tickA_succ]; exact a1, ?_, ?_, ?_⟩
    · intro x
      have h4 := a4 x
      calc valCount (tickA w (t + 1)).keys x
          ≤ valCount (tickA w t).keys x := by
            rw [tickA_succ]
            show valCount ((drainLevels upgradeFilter
              ((tickA w t).keys, (tickA w t).fail) (tickA w t).levels).1.1) x ≤ _
            omega
        _ ≤ valCount w.keys x := i2 x
    · rw [tickA_succ]
      show (drainLevels upgradeFilter
        ((tickA w t).keys, (tickA w t).fail) (tickA w t).levels).1.2 = w.fail
      rw [a2]
      exact i3
    · intro x hx
      rw [tickA_succ] at hx
      exact i4 x (a3 x hx)

theorem outA_count_le (w : AllocWheel K) (hInv : RegInv w.keys) (t : Nat) (x : K) :
    (outA w t).count x ≤ valCount (tickA w t).keys x := by
  obtain ⟨i1, _, _, _⟩ := tickA_inv w hInv t
  have h4 := (drainA_spec (tickA w t).levels (tickA w t).keys (tickA w t).fail i1).2.2.2.1 x
  show ((drainLevels upgradeFilter
    ((tickA w t).keys, (tickA w t).fail) (tickA w t).levels).2.2).count x ≤ _
  omega

theorem rposition_lt (l : List Resolution) (r : Resolution) (i : Nat)
    (h : rposition l r = some i) : i < l.length := by
  unfold rposition at h
  cases hf : l.reverse.findIdx? (fun x => x = r) with
  | none => rw [hf] at h; simp at h
  | some j =>
    rw [hf] at h
    simp only [Option.map] at h
    cases l with
    | nil => simp at hf
    | cons a as =>
      simp only [List.length_cons] at h ⊢
      simp only [Option.some.injEq] at h
      omega

theorem sizesOfLv_getD {E : Type} : ∀ (lv : Levels E) (L : Nat), L < lv.length →
    (lv.getD L ([], 0)).1.length = (sizesOfLv lv).getD L 0 := by
  intro lv
  induction lv with
  | nil => intro L h; simp at h
  | cons hd rest ih =>
    intro L h
    cases L with
    | zero => simp [sizesOfLv, List.getD_cons_zero]
    | succ L2 =>
      simp only [sizesOfLv, List.map_cons, List.getD_cons_succ]
      exact ih L2 (by simpa using h)

theorem cursorsOf_getD {E : Type} : ∀ (lv : Levels E) (L : Nat), L < lv.length →
    (lv.getD L ([], 0)).2 = (cursorsOf lv).getD L 0 := by
  intro lv
  induction lv with
  | nil => intro L h; simp at h
  | cons hd rest ih =>
    intro L h
    cases L with
    | zero => simp [cursorsOf, List.getD_cons_zero]
    | succ L2 =>
      simp only [cursorsOf, List.map_cons, List.getD_cons_succ]
      exact ih L2 (by simpa using h)

theorem digits_getD : ∀ (sz : List Nat) (n L : Nat), L < sz.length →
    (digits sz n).getD L 0 = (n / (sz.take L).prod) % (sz.getD L 0) := by
  intro sz
  induction sz with
  | nil => intro n L h; simp at h
  | cons s ss ih =>
    intro n L h
    cases L with
    | zero => simp [digits, List.getD_cons_zero, Nat.div_one]
    | succ L2 =>
      simp only [digits, List.getD_cons_succ, List.take_succ_cons, List.prod_cons]
      rw [ih (n / s) L2 (by simpa using h)]
      rw [Nat.div_div_eq_div_mul]

theorem prod_take_pos (sz : List Nat) (L : Nat) (hpos : AllPos sz) :
    0 < (sz.take L).prod := by
  apply List.prod_pos
  intro s hs
  exact hpos s (List.mem_of_mem_take hs)

theorem unitsC_ge_one (res : Resolution) (d : Nat) : 1 ≤ unitsC res d := by
  cases res <;> simp [unitsC]

theorem unitsA_ge_one (res : Resolution) (d : Nat) : 1 ≤ unitsA res d := by
  cases res <;> simp [unitsA]

theorem eq_nil_of_count_zero {l : List K} (h : ∀ x, l.count x = 0) : l = [] := by
  cases l with
  | nil => rfl
  | cons x rest =>
    have := h x
    simp [List.count_cons] at this

theorem eq_singleton_of_count {l : List K} (a : K)
    (h : ∀ x, l.count x = (if x = a then 1 else 0)) : l = [a] := by
  cases l with
  | nil =>
    have h0 := h a
    simp at h0
  | cons x rest =>
    have hx := h x
    have hxa : x = a := by
      by_contra hne
      rw [if_neg hne] at hx
      simp [List.count_cons] at hx
    subst hxa
    have hrest : rest = [] := by
      apply eq_nil_of_count_zero
      intro y
      have hy := h y
      by_cases hyx : y = x
      · subst hyx
        rw [if_pos rfl, List.count_cons] at hy
        simp at hy
        exact hy
      · rw [if_neg hyx, List.count_cons] at hy
        have hb : (x == y) = false := by
          simp only [beq_eq_false_iff_ne, ne_eq]
          intro hh
          exact hyx hh.symm
        rw [hb] at hy
        simpa using hy
    rw [hrest]

/-! ### Arming one key on a freshly driven wheel -/

/-- A fresh copy wheel driven for `t0` ticks and then armed with one key. -/
def armOneC (rs : List Resolution) (t0 : Nat) (k : K) (d : Nat) : CopyWheel K :=
  startC (tickC (newC rs) t0) k d

/-- A fresh alloc wheel driven for `t0` ticks and then armed with one key. -/
def armOneA (rs : List Resolution) (t0 : Nat) (k : K) (d : Nat) : AllocWheel K :=
  startA (tickA (newA rs) t0) k d

theorem tickC_new_facts (rs : List Resolution) (t0 : Nat) :
    (tickC (newC (K := K) rs) t0).resolutions = normalize rs ∧
    Shaped (sizesOf (normalize rs)) t0 (tickC (newC (K := K) rs) t0).levels ∧
    (tickC (newC (K := K) rs) t0).keys = [] ∧
    (∀ x : K, totalCount (tickC (newC (K := K) rs) t0).levels x = 0) := by
  have hres : (tickC (newC (K := K) rs) t0).resolutions = normalize rs := by
    rw [tickC_res]
    rfl
  have hshape : Shaped (sizesOf (normalize rs)) t0 (tickC (newC (K := K) rs) t0).levels := by
    have h0 : Shaped (sizesOf (normalize rs)) 0 (newC (K := K) rs).levels :=
      newLevels_shape K (sizesOf (normalize rs))
    have := tickC_shape (newC (K := K) rs) (sizesOf (normalize rs)) 0
      (sizesOf_pos _) h0 t0
    simpa using this
  have hkeys : (tickC (newC (K := K) rs) t0).keys = [] := by
    apply eq_nil_of_count_zero
    intro x
    have := tickC_keys_count_le (newC (K := K) rs) t0 x
    have h0 : (newC (K := K) rs).keys.count x = 0 := by simp [newC]
    omega
  refine ⟨hres, hshape, hkeys, fun x => ?_⟩
  exact tickC_total_zero (newC (K := K) rs) x (newLevels_empty _ x) t0

theorem armOneC_facts (rs : List Resolution) (d t0 : Nat) (k : K) (res : Resolution) (L : Nat)
    (hfind : levelOrder.find? (acceptB (normalize rs) d unitsC) = some res)
    (hL : rposition (normalize rs) res = some L)
    (hcap : unitsC res d ≤ (sizesOf (normalize rs)).getD L 0) :
    (armOneC rs t0 k d).keys = [k] ∧
    Shaped (sizesOf (normalize rs)) t0 (armOneC rs t0 k d).levels ∧
    totalCount (armOneC rs t0 k d).levels k = 1 ∧
    (slotAt (armOneC rs t0 k d).levels L
      (((t0 / ((sizesOf (normalize rs)).take L).prod) % (sizesOf (normalize rs)).getD L 0
        + unitsC res d) % (sizesOf (normalize rs)).getD L 0)).count k = 1 := by
  obtain ⟨hres, hshape, hkeys, htot⟩ := tickC_new_facts (K := K) rs t0
  have hLlt : L < (normalize rs).length := rposition_lt _ _ _ hL
  have hLlt2 : L < (sizesOf (normalize rs)).length := by rw [sizesOf_length]; exact hLlt
  have hlen : (tickC (newC (K := K) rs) t0).levels.length = (sizesOf (normalize rs)).length := by
    have := hshape.1
    rw [← this]
    simp [sizesOfLv]
  have hLlv : L < (tickC (newC (K := K) rs) t0).levels.length := by omega
  have hmemL : (sizesOf (normalize rs)).getD L 0 ∈ sizesOf (normalize rs) := by
    rw [List.getD_eq_getElem?_getD, List.getElem?_eq_getElem hLlt2, Option.getD_some]
    exact List.getElem_mem hLlt2
  have hcap10 : 10 ≤ (sizesOf (normalize rs)).getD L 0 := sizesOf_ge_ten _ _ hmemL
  have hcapLv : (((tickC (newC (K := K) rs) t0).levels.getD L ([], 0)).1).length
      = (sizesOf (normalize rs)).getD L 0 := by
    rw [sizesOfLv_getD _ L hLlv, hshape.1]
  have hcurs : (((tickC (newC (K := K) rs) t0).levels.getD L ([], 0))).2
      = (t0 / ((sizesOf (normalize rs)).take L).prod) % (sizesOf (normalize rs)).getD L 0 := by
    rw [cursorsOf_getD _ L hLlv, hshape.2]
    exact digits_getD _ t0 L hLlt2
  have hres2 : ({ tickC (newC (K := K) rs) t0 with
      keys := insertKey (tickC (newC (K := K) rs) t0).keys k } : CopyWheel K).resolutions
      = normalize rs := hres
  have hfind2 : levelOrder.find? (acceptB ({ tickC (newC (K := K) rs) t0 with
      keys := insertKey (tickC (newC (K := K) rs) t0).keys k } : CopyWheel K).resolutions
        d unitsC) = some res := by
    rw [hres2]
    exact hfind
  have harm : armOneC rs t0 k d
      = placedC { tickC (newC (K := K) rs) t0 with
          keys := insertKey (tickC (newC (K := K) rs) t0).keys k } k d res := by
    rw [armOneC, startC_eq_try, tryInsertC_char, hfind2]
  have hkeys2 : (armOneC rs t0 k d).keys = [k] := by
    rw [harm]
    show insertKey (tickC (newC (K := K) rs) t0).keys k = [k]
    rw [hkeys]
    simp [insertKey]
  have hL2 : rposition ({ tickC (newC (K := K) rs) t0 with
      keys := insertKey (tickC (newC (K := K) rs) t0).keys k } : CopyWheel K).resolutions res
      = some L := by
    rw [hres2]
    exact hL
  have hplace : (armOneC rs t0 k d).levels
      = placeLevel (tickC (newC (K := K) rs) t0).levels L k (unitsC res d) := by
    rw [harm]
    show placeLevel _ ((rposition _ res).getD 0) k (unitsC res d) = _
    rw [hL2]
    rfl
  have hcappos : 0 < (((tickC (newC (K := K) rs) t0).levels.getD L ([], 0)).1).length := by
    rw [hcapLv]
    omega
  refine ⟨hkeys2, ?_, ?_, ?_⟩
  · rw [hplace]
    exact ⟨by rw [sizesOfLv_place]; exact hshape.1, by rw [cursorsOf_place]; exact hshape.2⟩
  · rw [hplace, totalCount_place _ L k k _ hLlv hcappos, htot]
    simp
  · have hnoclamp : ¬ (unitsC res d > (((tickC (newC (K := K) rs) t0).levels.getD L ([], 0)).1).length) := by
      rw [hcapLv]
      omega
    have hpi : placeIndex (tickC (newC (K := K) rs) t0).levels L (unitsC res d)
        = ((t0 / ((sizesOf (normalize rs)).take L).prod) % (sizesOf (normalize rs)).getD L 0
          + unitsC res d) % (sizesOf (normalize rs)).getD L 0 := by
      simp only [placeIndex]
      rw [if_neg hnoclamp, hcurs, hcapLv]
    rw [hplace, ← hpi, slotAt_place_self _ L k _ hLlv hcappos]
    rw [List.count_append]
    have hsl0 : (slotAt (tickC (newC (K := K) rs) t0).levels L
        (placeIndex (tickC (newC (K := K) rs) t0).levels L (unitsC res d))).count k = 0 := by
      have hle := slotAt_count_le_total (tickC (newC (K := K) rs) t0).levels L
        (placeIndex (tickC (newC (K := K) rs) t0).levels L (unitsC res d)) k
      rw [htot k] at hle
      omega
    rw [hsl0]
    simp

theorem tickA_new_facts (rs : List Resolution) (t0 : Nat) :
    (tickA (newA (K := K) rs) t0).resolutions = normalize rs ∧
    Shaped (sizesOf (normalize rs)) t0 (tickA (newA (K := K) rs) t0).levels ∧
    (tickA (newA (K := K) rs) t0).keys = [] ∧
    (∀ x : Nat, totalCount (tickA (newA (K := K) rs) t0).levels x = 0) ∧
    (tickA (newA (K := K) rs) t0).nextId = 0 ∧
    (tickA (newA (K := K) rs) t0).fail = false := by
  have hres : (tickA (newA (K := K) rs) t0).resolutions = normalize rs := by
    rw [tickA_res]
    rfl
  have hshape : Shaped (sizesOf (normalize rs)) t0 (tickA (newA (K := K) rs) t0).levels := by
    have h0 : Shaped (sizesOf (normalize rs)) 0 (newA (K := K) rs).levels :=
      newLevels_shape Nat (sizesOf (normalize rs))
    have := tickA_shape (newA (K := K) rs) (sizesOf (normalize rs)) 0
      (sizesOf_pos _) h0 t0
    simpa using this
  have hInv0 : RegInv ((newA (K := K) rs).keys) := by
    constructor <;> simp [newA]
  obtain ⟨i1, i2, i3, i4⟩ := tickA_inv (newA (K := K) rs) hInv0 t0
  have hkeys : (tickA (newA (K := K) rs) t0).keys = [] := by
    cases hk : (tickA (newA (K := K) rs) t0).keys with
    | nil => rfl
    | cons c rest =>
      have : c ∈ (newA (K := K) rs).keys := i4 c (by rw [hk]; exact List.mem_cons_self _ _)
      simp [newA] at this
  refine ⟨hres, hshape, hkeys, fun x => ?_, ?_, ?_⟩
  · exact tickA_total_zero (newA (K := K) rs) x (newLevels_empty _ x) t0
  · rw [tickA_nextId]; rfl
  · rw [i3]; rfl

theorem armOneA_facts (rs : List Resolution) (d t0 : Nat) (k : K) (res : Resolution) (L : Nat)
    (hfind : levelOrder.find? (acceptB (normalize rs) d unitsA) = some res)
    (hL : rposition (normalize rs) res = some L)
    (hcap : unitsA res d ≤ (sizesOf (normalize rs)).getD L 0) :
    (armOneA rs t0 k d).keys = [(0, k)] ∧
    (armOneA rs t0 k d).fail = false ∧
    Shaped (sizesOf (normalize rs)) t0 (armOneA rs t0 k d).levels ∧
    totalCount (armOneA rs t0 k d).levels 0 = 1 ∧
    (slotAt (armOneA rs t0 k d).levels L
      (((t0 / ((sizesOf (normalize rs)).take L).prod) % (sizesOf (normalize rs)).getD L 0
        + unitsA res d) % (sizesOf (normalize rs)).getD L 0)).count 0 = 1 := by
  obtain ⟨hres, hshape, hkeys, htot, hnext, hfail⟩ := tickA_new_facts (K := K) rs t0
  have hLlt : L < (normalize rs).length := rposition_lt _ _ _ hL
  have hLlt2 : L < (sizesOf (normalize rs)).length := by rw [sizesOf_length]; exact hLlt
  have hlen : (tickA (newA (K := K) rs) t0).levels.length = (sizesOf (normalize rs)).length := by
    have := hshape.1
    rw [← this]
    simp [sizesOfLv]
  have hLlv : L < (tickA (newA (K := K) rs) t0).levels.length := by omega
  have hmemL : (sizesOf (normalize rs)).getD L 0 ∈ sizesOf (normalize rs) := by
    rw [List.getD_eq_getElem?_getD, List.getElem?_eq_getElem hLlt2, Option.getD_some]
    exact List.getElem_mem hLlt2
  have hcap10 : 10 ≤ (sizesOf (normalize rs)).getD L 0 := sizesOf_ge_ten _ _ hmemL
  have hcapLv : (((tickA (newA (K := K) rs) t0).levels.getD L ([], 0)).1).length
      = (sizesOf (normalize rs)).getD L 0 := by
    rw [sizesOfLv_getD _ L hLlv, hshape.1]
  have hcurs : (((tickA (newA (K := K) rs) t0).levels.getD L ([], 0))).2
      = (t0 / ((sizesOf (normalize rs)).take L).prod) % (sizesOf (normalize rs)).getD L 0 := by
    rw [cursorsOf_getD _ L hLlv, hshape.2]
    exact digits_getD _ t0 L hLlt2
  have hkeys1 : (if (tickA (newA (K := K) rs) t0).keys.any (fun e => e.2 = k)
      then (tickA (newA (K := K) rs) t0).keys
      else (tickA (newA (K := K) rs) t0).keys ++ [((tickA (newA (K := K) rs) t0).nextId, k)])
      = [(0, k)] := by
    rw [hkeys, hnext]
    simp
  have hres2 : ({ tickA (newA (K := K) rs) t0 with
      keys := if (tickA (newA (K := K) rs) t0).keys.any (fun e => e.2 = k)
        then (tickA (newA (K := K) rs) t0).keys
        else (tickA (newA (K := K) rs) t0).keys ++ [((tickA (newA (K := K) rs) t0).nextId, k)],
      nextId := (tickA (newA (K := K) rs) t0).nextId + 1 } : AllocWheel K).resolutions
      = normalize rs := hres
  have hfind2 : levelOrder.find? (acceptB ({ tickA (newA (K := K) rs) t0 with
      keys := if (tickA (newA (K := K) rs) t0).keys.any (fun e => e.2 = k)
        then (tickA (newA (K := K) rs) t0).keys
        else (tickA (newA (K := K) rs) t0).keys ++ [((tickA (newA (K := K) rs) t0).nextId, k)],
      nextId := (tickA (newA (K := K) rs) t0).nextId + 1 } : AllocWheel K).resolutions
        d unitsA) = some res := by
    rw [hres2]
    exact hfind
  have hL2 : rposition ({ tickA (newA (K := K) rs) t0 with
      keys := if (tickA (newA (K := K) rs) t0).keys.any (fun e => e.2 = k)
        then (tickA (newA (K := K) rs) t0).keys
        else (tickA (newA (K := K) rs) t0).keys ++ [((tickA (newA (K := K) rs) t0).nextId, k)],
      nextId := (tickA (newA (K := K) rs) t0).nextId + 1 } : AllocWheel K).resolutions res
      = some L := by
    rw [hres2]
    exact hL
  have harm : armOneA rs t0 k d
      = placedA { tickA (newA (K := K) rs) t0 with
          keys := if (tickA (newA (K := K) rs) t0).keys.any (fun e => e.2 = k)
            then (tickA (newA (K := K) rs) t0).keys
            else (tickA (newA (K := K) rs) t0).keys
              ++ [((tickA (newA (K := K) rs) t0).nextId, k)],
          nextId := (tickA (newA (K := K) rs) t0).nextId + 1 }
          (tickA (newA (K := K) rs) t0).nextId d res := by
    rw [armOneA, startA_eq_try, tryInsertA_char, hfind2]
  have hkeys2 : (armOneA rs t0 k d).keys = [(0, k)] := by
    rw [harm]
    exact hkeys1
  have hfail2 : (armOneA rs t0 k d).fail = false := by
    rw [harm]
    exact hfail
  have hplace : (armOneA rs t0 k d).levels
      = placeLevel (tickA (newA (K := K) rs) t0).levels L
          (tickA (newA (K := K) rs) t0).nextId (unitsA res d) := by
    rw [harm]
    show placeLevel _ ((rposition _ res).getD 0) _ (unitsA res d) = _
    rw [hL2]
    rfl
  have hcappos : 0 < (((tickA (newA (K := K) rs) t0).levels.getD L ([], 0)).1).length := by
    rw [hcapLv]
    omega
  refine ⟨hkeys2, hfail2, ?_, ?_, ?_⟩
  · rw [hplace]
    exact ⟨by rw [sizesOfLv_place]; exact hshape.1, by rw [cursorsOf_place]; exact hshape.2⟩
  · rw [hplace, hnext, totalCount_place _ L 0 0 _ hLlv hcappos, htot]
    simp
  · have hnoclamp : ¬ (unitsA res d
        > (((tickA (newA (K := K) rs) t0).levels.getD L ([], 0)).1).length) := by
      rw [hcapLv]
      omega
    have hpi : placeIndex (tickA (newA (K := K) rs) t0).levels L (unitsA res d)
        = ((t0 / ((sizesOf (normalize rs)).take L).prod) % (sizesOf (normalize rs)).getD L 0
          + unitsA res d) % (sizesOf (normalize rs)).getD L 0 := by
      simp only [placeIndex]
      rw [if_neg hnoclamp, hcurs, hcapLv]
    rw [hplace, hnext, ← hpi, slotAt_place_self _ L 0 _ hLlv hcappos]
    rw [List.count_append]
    have hsl0 : (slotAt (tickA (newA (K := K) rs) t0).levels L
        (placeIndex (tickA (newA (K := K) rs) t0).levels L (unitsA res d))).count 0 = 0 := by
      have hle := slotAt_count_le_total (tickA (newA (K := K) rs) t0).levels L
        (placeIndex (tickA (newA (K := K) rs) t0).levels L (unitsA res d)) 0
      rw [htot 0] at hle
      omega
    rw [hsl0]
    simp

/-! ### Claim C2 -/

/-- C2 (amended): for a key armed with a duration strictly within the
hierarchy's representable range (the accepted level's unit count fits its
capacity), exactly one `expire()` call returns the key, and returns it
exactly once — in both variants.  That call is not, in general, the one
whose cumulative tick count since arming reaches the duration rounded up
to the next full unit: it is the call numbered
`u * P - t0 % P - 1` (0-indexed, counted from arming), where `u` is the
unit count computed at the accepted level, `P` the product of the
capacities of the finer active levels, and `t0` the number of `expire()`
calls that had been driven before the key was armed.  (The claim's
formulation is recovered exactly when `t0 % P = 0` and one level unit
equals `P` finest ticks.)  All other calls return the key zero times. -/
theorem C2_expire_unique_fire (rs : List Resolution) (d t0 : Nat) (k : K)
    (resC : Resolution) (LC : Nat) (resA : Resolution) (LA : Nat)
    (hfindC : levelOrder.find? (acceptB (normalize rs) d unitsC) = some resC)
    (hLC : rposition (normalize rs) resC = some LC)
    (hcapC : unitsC resC d ≤ (sizesOf (normalize rs)).getD LC 0)
    (hfindA : levelOrder.find? (acceptB (normalize rs) d unitsA) = some resA)
    (hLA : rposition (normalize rs) resA = some LA)
    (hcapA : unitsA resA d ≤ (sizesOf (normalize rs)).getD LA 0) :
    (∀ t, (outC (armOneC rs t0 k d) t).count k
      = if t = unitsC resC d * ((sizesOf (normalize rs)).take LC).prod
            - t0 % ((sizesOf (normalize rs)).take LC).prod - 1 then 1 else 0) ∧
    (∀ t, (outA (armOneA rs t0 k d) t).count k
      = if t = unitsA resA d * ((sizesOf (normalize rs)).take LA).prod
            - t0 % ((sizesOf (normalize rs)).take LA).prod - 1 then 1 else 0) := by
  have hposz : AllPos (sizesOf (normalize rs)) := sizesOf_pos _
  constructor
  · obtain ⟨hk1, hSh, htc1, hsl1⟩ := armOneC_facts rs d t0 k resC LC hfindC hLC hcapC
    have hLlt : LC < (normalize rs).length := rposition_lt _ _ _ hLC
    have hLlt2 : LC < (sizesOf (normalize rs)).length := by rw [sizesOf_length]; exact hLlt
    have hu2 : 2 ≤ unitsC resC d := by
      have hb := List.find?_some hfindC
      simp only [acceptB, Bool.and_eq_true, decide_eq_true_eq] at hb
      have := unitsC_ge_one resC d
      omega
    have hP : 0 < ((sizesOf (normalize rs)).take LC).prod := prod_take_pos _ _ hposz
    have hmemL : (sizesOf (normalize rs)).getD LC 0 ∈ sizesOf (normalize rs) := by
      rw [List.getD_eq_getElem?_getD, List.getElem?_eq_getElem hLlt2, Option.getD_some]
      exact List.getElem_mem hLlt2
    have hcap0 : 0 < (sizesOf (normalize rs)).getD LC 0 := by
      have := sizesOf_ge_ten _ _ hmemL
      omega
    have hhit : ∀ t, t ≤ unitsC resC d * ((sizesOf (normalize rs)).take LC).prod
        - t0 % ((sizesOf (normalize rs)).take LC).prod - 1 →
        (hitB (sizesOf (normalize rs)) LC
          (((t0 / ((sizesOf (normalize rs)).take LC).prod)
              % (sizesOf (normalize rs)).getD LC 0
            + unitsC resC d) % (sizesOf (normalize rs)).getD LC 0) (t0 + t + 1) = true
          ↔ t = unitsC resC d * ((sizesOf (normalize rs)).take LC).prod
            - t0 % ((sizesOf (normalize rs)).take LC).prod - 1) := by
      intro t ht
      rw [hitB_iff _ _ _ _ hLlt2]
      exact fire_hit _ _ t0 _ hP hcap0 hu2 hcapC t ht
    have hcnt1 : (armOneC rs t0 k d).keys.count k = 1 := by rw [hk1]; simp
    exact (runC_single (sizesOf (normalize rs)) LC _ _ k hposz t0 _ hSh hcnt1 htc1
      hsl1 hhit).2
  · obtain ⟨hk1, hf1, hSh, htc1, hsl1⟩ := armOneA_facts rs d t0 k resA LA hfindA hLA hcapA
    have hLlt : LA < (normalize rs).length := rposition_lt _ _ _ hLA
    have hLlt2 : LA < (sizesOf (normalize rs)).length := by rw [sizesOf_length]; exact hLlt
    have hu2 : 2 ≤ unitsA resA d := by
      have hb := List.find?_some hfindA
      simp only [acceptB, Bool.and_eq_true, decide_eq_true_eq] at hb
      have := unitsA_ge_one resA d
      omega
    have hP : 0 < ((sizesOf (normalize rs)).take LA).prod := prod_take_pos _ _ hposz
    have hmemL : (sizesOf (normalize rs)).getD LA 0 ∈ sizesOf (normalize rs) := by
      rw [List.getD_eq_getElem?_getD, List.getElem?_eq_getElem hLlt2, Option.getD_some]
      exact List.getElem_mem hLlt2
    have hcap0 : 0 < (sizesOf (normalize rs)).getD LA 0 := by
      have := sizesOf_ge_ten _ _ hmemL
      omega
    have hhit : ∀ t, t ≤ unitsA resA d * ((sizesOf (normalize rs)).take LA).prod
        - t0 % ((sizesOf (normalize rs)).take LA).prod - 1 →
        (hitB (sizesOf (normalize rs)) LA
          (((t0 / ((sizesOf (normalize rs)).take LA).prod)
              % (sizesOf (normalize rs)).getD LA 0
            + unitsA resA d) % (sizesOf (normalize rs)).getD LA 0) (t0 + t + 1) = true
          ↔ t = unitsA resA d * ((sizesOf (normalize rs)).take LA).prod
            - t0 % ((sizesOf (normalize rs)).take LA).prod - 1) := by
      intro t ht
      rw [hitB_iff _ _ _ _ hLlt2]
      exact fire_hit _ _ t0 _ hP hcap0 hu2 hcapA t ht
    have hInv1 : RegInv (armOneA rs t0 k d).keys := by
      rw [hk1]
      constructor <;> simp [valCount]
    have hmem1 : (0, k) ∈ (armOneA rs t0 k d).keys := by rw [hk1]; simp
    exact (runA_single (sizesOf (normalize rs)) LA _ _ 0 k hposz t0 _ hSh hInv1 hmem1
      htc1 hsl1 hhit).2

/-- C2 counterexample: in the configuration {Ms, TenMs}, a key armed for
35 ms after 5 driver ticks is placed at the TenMs level with 4 units
(35 ms rounded up to the next full unit is 40 ms = 40 ticks), yet it is
returned by the call with 0-indexed post-arming tick count 34 (cumulative
35 ticks < 40), and the call at tick 39 — the one the claim designates —
returns nothing.  This holds in both variants. -/
theorem C2_counterexample :
    unitsC Resolution.TenMs 35000000 = 4 ∧
    outC (armOneC [.Ms, .TenMs] 5 (0 : Nat) 35000000) 34 = [0] ∧
    outC (armOneC [.Ms, .TenMs] 5 (0 : Nat) 35000000) 39 = [] ∧
    outA (armOneA [.Ms, .TenMs] 5 (0 : Nat) 35000000) 34 = [0] ∧
    outA (armOneA [.Ms, .TenMs] 5 (0 : Nat) 35000000) 39 = [] := by
  decide

/-- Witness for C2 (amended), at the counterexample's concrete input:
configuration {Ms, TenMs}, duration 35 ms, armed after 5 ticks; the
accepted level is TenMs with 4 units, and the firing tick is
4 · 10 − 5 % 10 − 1 = 34. -/
theorem C2_expire_unique_fire_witness :
    (levelOrder.find? (acceptB (normalize [.Ms, .TenMs]) 35000000 unitsC)
      = some .TenMs) ∧
    ((∀ t, (outC (armOneC [.Ms, .TenMs] 5 (0 : Nat) 35000000) t).count 0
        = if t = unitsC .TenMs 35000000 * ((sizesOf (normalize [.Ms, .TenMs])).take 1).prod
            - 5 % ((sizesOf (normalize [.Ms, .TenMs])).take 1).prod - 1 then 1 else 0) ∧
      (∀ t, (outA (armOneA [.Ms, .TenMs] 5 (0 : Nat) 35000000) t).count 0
        = if t = unitsA .TenMs 35000000 * ((sizesOf (normalize [.Ms, .TenMs])).take 1).prod
            - 5 % ((sizesOf (normalize [.Ms, .TenMs])).take 1).prod - 1 then 1 else 0)) :=
  ⟨by decide,
    C2_expire_unique_fire [.Ms, .TenMs] 35000000 5 0 .TenMs 1 .TenMs 1
      (by decide) (by decide) (by decide) (by decide) (by decide) (by decide)⟩

/-! ### The six-timer scenario of the unit tests (claim C1) -/

/-- The full configuration used by the repository's unit tests. -/
def c1Res : List Resolution := [.Ms, .TenMs, .HundredMs, .Sec, .Min, .Hour]

/-- The level capacities `wheel_sizes` derives for `c1Res`. -/
def c1Sz : List Nat := [10, 10, 10, 60, 60, 24]

/-- The copy wheel with keys "a".."f" armed right after construction for
5 ms, 35 ms, 150 ms, 5.010 s, 5 min 10 s and 5 h 10 s. -/
def c1ArmC : CopyWheel String :=
  startC (startC (startC (startC (startC (startC (newC c1Res)
    "a" 5000000) "b" 35000000) "c" 150000000) "d" 5010000000)
    "e" 310000000000) "f" 18010000000000

/-- The alloc wheel armed identically. -/
def c1ArmA : AllocWheel String :=
  startA (startA (startA (startA (startA (startA (newA c1Res)
    "a" 5000000) "b" 35000000) "c" 150000000) "d" 5010000000)
    "e" 310000000000) "f" 18010000000000

/-- The keys actually returned by the `t`-th `expire()` call (0-indexed)
in the scenario. -/
def c1Out (t : Nat) : List String :=
  if t = 5 then ["a"] else if t = 39 then ["b"] else if t = 199 then ["c"]
  else if t = 5999 then ["d"] else if t = 359999 then ["e"]
  else if t = 21599999 then ["f"] else []

theorem c1Sz_pos : AllPos c1Sz := by
  unfold AllPos
  decide

theorem c1_hhit (L p fire P cap u : Nat)
    (hL : L < c1Sz.length)
    (hPe : (c1Sz.take L).prod = P) (hcape : c1Sz.getD L 0 = cap)
    (hpe : u % cap = p) (hfiree : u * P - 1 = fire)
    (hPpos : 0 < P) (hcappos : 0 < cap) (hu2 : 2 ≤ u) (hucap : u ≤ cap) :
    ∀ t, t ≤ fire → (hitB c1Sz L p (0 + t + 1) = true ↔ t = fire) := by
  intro t ht
  rw [hitB_iff c1Sz L p (0 + t + 1) hL, hPe, hcape, ← hpe, ← hfiree]
  have h := fire_hit P cap 0 u hPpos hcappos hu2 hucap t
    (by rw [Nat.zero_mod]; omega)
  simpa using h

theorem count_singleton_aux {l : List String} (y : String)
    (hy : l.count y = 1)
    (h0 : ∀ x, x ≠ y → (x = "a" ∨ x = "b" ∨ x = "c" ∨ x = "d" ∨ x = "e" ∨ x = "f") →
      l.count x = 0)
    (ho : ∀ x, x ≠ "a" → x ≠ "b" → x ≠ "c" → x ≠ "d" → x ≠ "e" → x ≠ "f" →
      l.count x = 0) :
    l = [y] := by
  apply eq_singleton_of_count y
  intro x
  by_cases hx : x = y
  · subst hx
    simpa using hy
  · rw [if_neg hx]
    by_cases hsix : x = "a" ∨ x = "b" ∨ x = "c" ∨ x = "d" ∨ x = "e" ∨ x = "f"
    · exact h0 x hx hsix
    · push_neg at hsix
      exact ho x hsix.1 hsix.2.1 hsix.2.2.1 hsix.2.2.2.1 hsix.2.2.2.2.1 hsix.2.2.2.2.2

theorem c1_assemble (l : List String) (t : Nat)
    (ha : l.count "a" = if t = 5 then 1 else 0)
    (hb : l.count "b" = if t = 39 then 1 else 0)
    (hc : l.count "c" = if t = 199 then 1 else 0)
    (hd : l.count "d" = if t = 5999 then 1 else 0)
    (he : l.count "e" = if t = 359999 then 1 else 0)
    (hf : l.count "f" = if t = 21599999 then 1 else 0)
    (ho : ∀ x, x ≠ "a" → x ≠ "b" → x ≠ "c" → x ≠ "d" → x ≠ "e" → x ≠ "f" →
      l.count x = 0) :
    l = c1Out t := by
  unfold c1Out
  by_cases h1 : t = 5
  · subst h1
    norm_num at ha hb hc hd he hf ⊢
    refine count_singleton_aux "a" ha ?_ ho
    intro x hx hsix
    rcases hsix with h | h | h | h | h | h <;> subst h
    exacts [absurd rfl hx, hb, hc, hd, he, hf]
  rw [if_neg h1] at ha ⊢
  by_cases h2 : t = 39
  · subst h2
    norm_num at hb hc hd he hf ⊢
    refine count_singleton_aux "b" hb ?_ ho
    intro x hx hsix
    rcases hsix with h | h | h | h | h | h <;> subst h
    exacts [ha, absurd rfl hx, hc, hd, he, hf]
  rw [if_neg h2] at hb ⊢
  by_cases h3 : t = 199
  · subst h3
    norm_num at hc hd he hf ⊢
    refine count_singleton_aux "c" hc ?_ ho
    intro x hx hsix
    rcases hsix with h | h | h | h | h | h <;> subst h
    exacts [ha, hb, absurd rfl hx, hd, he, hf]
  rw [if_neg h3] at hc ⊢
  by_cases h4 : t = 5999
  · subst h4
    norm_num at hd he hf ⊢
    refine count_singleton_aux "d" hd ?_ ho
    intro x hx hsix
    rcases hsix with h | h | h | h | h | h <;> subst h
    exacts [ha, hb, hc, absurd rfl hx, he, hf]
  rw [if_neg h4] at hd ⊢
  by_cases h5 : t = 359999
  · subst h5
    norm_num at he hf ⊢
    refine count_singleton_aux "e" he ?_ ho
    intro x hx hsix
    rcases hsix with h | h | h | h | h | h <;> subst h
    exacts [ha, hb, hc, hd, absurd rfl hx, hf]
  rw [if_neg h5] at he ⊢
  by_cases h6 : t = 21599999
  · subst h6
    norm_num at hf ⊢
    refine count_singleton_aux "f" hf ?_ ho
    intro x hx hsix
    rcases hsix with h | h | h | h | h | h <;> subst h
    exacts [ha, hb, hc, hd, he, absurd rfl hx]
  rw [if_neg h6] at hf ⊢
  apply eq_nil_of_count_zero
  intro x
  by_cases hA : x = "a"
  · subst hA; exact ha
  by_cases hB : x = "b"
  · subst hB; exact hb
  by_cases hC : x = "c"
  · subst hC; exact hc
  by_cases hD : x = "d"
  · subst hD; exact hd
  by_cases hE : x = "e"
  · subst hE; exact he
  by_cases hF : x = "f"
  · subst hF; exact hf
  exact ho x hA hB hC hD hE hF

theorem c1_outC_char : ∀ t,
    (outC c1ArmC t).count "a" = (if t = 5 then 1 else 0) ∧
    (outC c1ArmC t).count "b" = (if t = 39 then 1 else 0) ∧
    (outC c1ArmC t).count "c" = (if t = 199 then 1 else 0) ∧
    (outC c1ArmC t).count "d" = (if t = 5999 then 1 else 0) ∧
    (outC c1ArmC t).count "e" = (if t = 359999 then 1 else 0) ∧
    (outC c1ArmC t).count "f" = (if t = 21599999 then 1 else 0) := by
  have hS : Shaped c1Sz 0 c1ArmC.levels := ⟨by decide, by decide⟩
  have ha := (runC_single c1Sz 0 6 5 "a" c1Sz_pos 0 c1ArmC hS
    (by decide) (by decide) (by decide)
    (c1_hhit 0 6 5 1 10 6 (by decide) (by decide) (by decide) (by decide)
      (by decide) (by decide) (by decide) (by decide) (by decide))).2
  have hb := (runC_single c1Sz 1 4 39 "b" c1Sz_pos 0 c1ArmC hS
    (by decide) (by decide) (by decide)
    (c1_hhit 1 4 39 10 10 4 (by decide) (by decide) (by decide) (by decide)
      (by decide) (by decide) (by decide) (by decide) (by decide))).2
  have hc := (runC_single c1Sz 2 2 199 "c" c1Sz_pos 0 c1ArmC hS
    (by decide) (by decide) (by decide)
    (c1_hhit 2 2 199 100 10 2 (by decide) (by decide) (by decide) (by decide)
      (by decide) (by decide) (by decide) (by decide) (by decide))).2
  have hd := (runC_single c1Sz 3 6 5999 "d" c1Sz_pos 0 c1ArmC hS
    (by decide) (by decide) (by decide)
    (c1_hhit 3 6 5999 1000 60 6 (by decide) (by decide) (by decide) (by decide)
      (by decide) (by decide) (by decide) (by decide) (by decide))).2
  have he := (runC_single c1Sz 4 6 359999 "e" c1Sz_pos 0 c1ArmC hS
    (by decide) (by decide) (by decide)
    (c1_hhit 4 6 359999 60000 60 6 (by decide) (by decide) (by decide) (by decide)
      (by decide) (by decide) (by decide) (by decide) (by decide))).2
  have hf := (runC_single c1Sz 5 6 21599999 "f" c1Sz_pos 0 c1ArmC hS
    (by decide) (by decide) (by decide)
    (c1_hhit 5 6 21599999 3600000 24 6 (by decide) (by decide) (by decide) (by decide)
      (by decide) (by decide) (by decide) (by decide) (by decide))).2
  exact fun t => ⟨ha t, hb t, hc t, hd t, he t, hf t⟩

theorem c1_outC_other : ∀ (t : Nat) (x : String),
    x ≠ "a" → x ≠ "b" → x ≠ "c" → x ≠ "d" → x ≠ "e" → x ≠ "f" →
    (outC c1ArmC t).count x = 0 := by
  intro t x h1 h2 h3 h4 h5 h6
  have hle := outC_count_le c1ArmC t x
  have hk := tickC_keys_count_le c1ArmC t x
  have h0 : c1ArmC.keys.count x = 0 := by
    have hkeys : c1ArmC.keys = ["a", "b", "c", "d", "e", "f"] := by decide
    rw [hkeys, List.count_eq_zero]
    simp [h1, h2, h3, h4, h5, h6]
  omega

theorem c1_outC_eq : ∀ t, outC c1ArmC t = c1Out t := by
  intro t
  obtain ⟨ha, hb, hc, hd, he, hf⟩ := c1_outC_char t
  exact c1_assemble _ t ha hb hc hd he hf (fun x => c1_outC_other t x)

theorem c1_outA_char : ∀ t,
    (outA c1ArmA t).count "a" = (if t = 5 then 1 else 0) ∧
    (outA c1ArmA t).count "b" = (if t = 39 then 1 else 0) ∧
    (outA c1ArmA t).count "c" = (if t = 199 then 1 else 0) ∧
    (outA c1ArmA t).count "d" = (if t = 5999 then 1 else 0) ∧
    (outA c1ArmA t).count "e" = (if t = 359999 then 1 else 0) ∧
    (outA c1ArmA t).count "f" = (if t = 21599999 then 1 else 0) := by
  have hS : Shaped c1Sz 0 c1ArmA.levels := ⟨by decide, by decide⟩
  have hInv : RegInv c1ArmA.keys := ⟨by decide, by decide⟩
  have ha := (runA_single c1Sz 0 6 5 0 "a" c1Sz_pos 0 c1ArmA hS hInv
    (by decide) (by decide) (by decide)
    (c1_hhit 0 6 5 1 10 6 (by decide) (by decide) (by decide) (by decide)
      (by decide) (by decide) (by decide) (by decide) (by decide))).2
  have hb := (runA_single c1Sz 1 4 39 1 "b" c1Sz_pos 0 c1ArmA hS hInv
    (by decide) (by decide) (by decide)
    (c1_hhit 1 4 39 10 10 4 (by decide) (by decide) (by decide) (by decide)
      (by decide) (by decide) (by decide) (by decide) (by decide))).2
  have hc := (runA_single c1Sz 2 2 199 2 "c" c1Sz_pos 0 c1ArmA hS hInv
    (by decide) (by decide) (by decide)
    (c1_hhit 2 2 199 100 10 2 (by decide) (by decide) (by decide) (by decide)
      (by decide) (by decide) (by decide) (by decide) (by decide))).2
  have hd := (runA_single c1Sz 3 6 5999 3 "d" c1Sz_pos 0 c1ArmA hS hInv
    (by decide) (by decide) (by decide)
    (c1_hhit 3 6 5999 1000 60 6 (by decide) (by decide) (by decide) (by decide)
      (by decide) (by decide) (by decide) (by decide) (by decide))).2
  have he := (runA_single c1Sz 4 6 359999 4 "e" c1Sz_pos 0 c1ArmA hS hInv
    (by decide) (by decide) (by decide)
    (c1_hhit 4 6 359999 60000 60 6 (by decide) (by decide) (by decide) (by decide)
      (by decide) (by decide) (by decide) (by decide) (by decide))).2
  have hf := (runA_single c1Sz 5 6 21599999 5 "f" c1Sz_pos 0 c1ArmA hS hInv
    (by decide) (by decide) (by decide)
    (c1_hhit 5 6 21599999 3600000 24 6 (by decide) (by decide) (by decide) (by decide)
      (by decide) (by decide) (by decide) (by decide) (by decide))).2
  exact fun t => ⟨ha t, hb t, hc t, hd t, he t, hf t⟩

theorem c1_outA_other : ∀ (t : Nat) (x : String),
    x ≠ "a" → x ≠ "b" → x ≠ "c" → x ≠ "d" → x ≠ "e" → x ≠ "f" →
    (outA c1ArmA t).count x = 0 := by
  intro t x h1 h2 h3 h4 h5 h6
  have hInv : RegInv c1ArmA.keys := ⟨by decide, by decide⟩
  have hle := outA_count_le c1ArmA hInv t x
  have hmono := (tickA_inv c1ArmA hInv t).2.1 x
  have h0 : valCount c1ArmA.keys x = 0 := by
    have hvals : c1ArmA.keys.map Prod.snd = ["a", "b", "c", "d", "e", "f"] := by decide
    unfold valCount
    rw [hvals, List.count_eq_zero]
    simp [h1, h2, h3, h4, h5, h6]
  omega

theorem c1_outA_eq : ∀ t, outA c1ArmA t = c1Out t := by
  intro t
  obtain ⟨ha, hb, hc, hd, he, hf⟩ := c1_outA_char t
  exact c1_assemble _ t ha hb hc hd he hf (fun x => c1_outA_other t x)

/-- C1 (amended): in the unit tests' configuration with keys "a".."f"
armed immediately after construction for 5 ms, 35 ms, 150 ms, 5.010 s,
5 min 10 s and 5 h 10 s, every `expire()` call (0-indexed) returns
exactly the keys given by `c1Out`: "a" at tick 5, "b" at tick 39, "c" at
tick 199 (not 249 as the spec states), "d" at tick 5999, "e" at tick
359999, "f" at tick 21599999, and nothing at any other tick — in both
wheel variants. -/
theorem C1_scenario_ticks : ∀ t, outC c1ArmC t = c1Out t ∧ outA c1ArmA t = c1Out t :=
  fun t => ⟨c1_outC_eq t, c1_outA_eq t⟩

/-- C1 counterexample: the spec places "c" (the 150 ms timer) at tick
249, but both wheels return it at tick 199 and return nothing at
tick 249. -/
theorem C1_counterexample :
    outC c1ArmC 199 = ["c"] ∧ outC c1ArmC 249 = [] ∧
    outA c1ArmA 199 = ["c"] ∧ outA c1ArmA 249 = [] :=
  ⟨(c1_outC_eq 199).trans (by decide), (c1_outC_eq 249).trans (by decide),
    (c1_outA_eq 199).trans (by decide), (c1_outA_eq 249).trans (by decide)⟩

/-! ### Claim C3: cancellation -/

theorem RegInv_eraseP (r : List (Nat × K)) (p : Nat × K → Bool) (h : RegInv r) :
    RegInv (r.eraseP p) := by
  have hsub : List.Sublist (r.eraseP p) r := List.eraseP_sublist (l := r) (p := p)
  exact ⟨List.Nodup.sublist (hsub.map Prod.fst) h.1,
    List.Nodup.sublist (hsub.map Prod.snd) h.2⟩

theorem valCount_eraseP_self (r : List (Nat × K)) (k : K)
    (hv : (r.map Prod.snd).Nodup) :
    valCount (r.eraseP (fun e => e.2 = k)) k = 0 := by
  by_cases hmem : k ∈ r.map Prod.snd
  · obtain ⟨c, hc, hck⟩ := List.mem_map.1 hmem
    subst hck
    have hperm := eraseP_val_perm r c hv hc
    have hcount : (r.map Prod.snd).count c.2 ≤ 1 := List.nodup_iff_count_le_one.1 hv c.2
    have hpc := (hperm.map Prod.snd).count_eq c.2
    rw [List.map_cons, List.count_cons_self] at hpc
    unfold valCount
    omega
  · rw [List.eraseP_of_forall_not]
    · unfold valCount
      rw [List.count_eq_zero]
      exact hmem
    · intro a ha
      simp only [decide_eq_true_eq]
      intro hak
      exact hmem (List.mem_map.2 ⟨a, ha, hak⟩)

/-- C3 (confirmed, in a stronger unconditional form): in either variant,
once `stop(key)` is called — in particular at any point strictly before
the `expire()` call that drains the key's slot — no subsequent `expire()`
call ever returns that key.  The hypotheses are the registry sanity
properties that hold in every reachable state: the copy registry holds at
most one copy of the key (`HashSet` semantics) and the alloc registry has
distinct cell ids and distinct key values. -/
theorem C3_stop_never_fires (w : CopyWheel K) (k : K) (hw : w.keys.count k ≤ 1)
    (wa : AllocWheel K) (hwa : RegInv wa.keys) :
    (∀ t, (outC (stopC w k) t).count k = 0) ∧
    (∀ t, (outA (stopA wa k) t).count k = 0) := by
  constructor
  · intro t
    have h1 := outC_count_le (stopC w k) t k
    have h2 := tickC_keys_count_le (stopC w k) t k
    have h0 : (stopC w k).keys.count k = 0 := by
      show (w.keys.erase k).count k = 0
      rw [List.count_erase_self]
      omega
    omega
  · have hInv2 : RegInv (stopA wa k).keys := by
      show RegInv (wa.keys.eraseP (fun e => e.2 = k))
      exact RegInv_eraseP wa.keys _ hwa
    intro t
    have h1 := outA_count_le (stopA wa k) hInv2 t k
    have h2 := (tickA_inv (stopA wa k) hInv2 t).2.1 k
    have h0 : valCount (stopA wa k).keys k = 0 := by
      show valCount (wa.keys.eraseP (fun e => e.2 = k)) k = 0
      exact valCount_eraseP_self wa.keys k hwa.2
    omega

/-- Witness for C3: a 2-second timer armed on a fresh `{Sec}` wheel of
each variant and then cancelled right away. -/
theorem C3_stop_never_fires_witness :
    (startC (newC [.Sec]) ("k" : String) 2000000000).keys.count "k" ≤ 1 ∧
    RegInv (startA (newA [.Sec]) ("k" : String) 2000000000).keys ∧
    ((∀ t, (outC (stopC (startC (newC [.Sec]) ("k" : String) 2000000000) "k") t).count "k"
        = 0) ∧
      (∀ t, (outA (stopA (startA (newA [.Sec]) ("k" : String) 2000000000) "k") t).count "k"
        = 0)) :=
  ⟨by decide, ⟨by decide, by decide⟩,
    C3_stop_never_fires _ "k" (by decide) _ ⟨by decide, by decide⟩⟩

/-! ### Claim C4: the placement scan and its unit computation -/

/-- Spec-side unit count (claim C4's formula): the full requested
duration expressed in the level's unit, truncated, plus 1. -/
def specUnits (r : Resolution) (d : Nat) : Nat := d / unitNs r + 1

/-- Spec-side description of `start`: insert the key into the registry,
then scan `levelOrder` (Hour, Min, Sec, HundredMs, TenMs, Ms)
coarsest-first and place at the first level that is configured and whose
unit count is not 1 (copy variant). -/
def specScanC (w : CopyWheel K) (k : K) (d : Nat)
    (units : Resolution → Nat → Nat) : CopyWheel K :=
  match levelOrder.find? (acceptB w.resolutions d units) with
  | none => { w with keys := insertKey w.keys k }
  | some res => placedC { w with keys := insertKey w.keys k } k d res

/-- The registry arming step of `AllocWheel::start`: a fresh cell id,
inserted only if the value is absent. -/
def regArmA (wa : AllocWheel K) (k : K) : AllocWheel K :=
  { wa with keys := if wa.keys.any (fun e => e.2 = k) then wa.keys else wa.keys ++ [(wa.nextId, k)], nextId := wa.nextId + 1 }

/-- Spec-side description of `start` for the alloc variant. -/
def specScanA (wa : AllocWheel K) (k : K) (d : Nat)
    (units : Resolution → Nat → Nat) : AllocWheel K :=
  match levelOrder.find? (acceptB wa.resolutions d units) with
  | none => regArmA wa k
  | some res => placedA (regArmA wa k) wa.nextId d res

/-- C4 (amended): both variants attempt placement coarsest-first — Hour,
Min, Sec, HundredMs, TenMs, Ms — skipping resolutions not in the active
configuration and rejecting a tried level exactly when its unit count
equals 1.  The copy variant computes units as the claim states: the full
requested duration in the level's unit, truncated, plus 1.  The alloc
variant computes units that way only at Sec and coarser; at the
sub-second levels it uses only the sub-second remainder of the duration,
not the full duration. -/
theorem C4_placement_scan (w : CopyWheel K) (wa : AllocWheel K) (k : K) (d : Nat) :
    startC w k d = specScanC w k d unitsC ∧
    (∀ r, unitsC r d = specUnits r d) ∧
    startA wa k d = specScanA wa k d unitsA ∧
    (∀ r, unitsA r d =
      if Resolution.ord r < Resolution.ord .Sec then specUnits r (subsecNanos d)
      else specUnits r d) := by
  refine ⟨?_, ?_, ?_, ?_⟩
  · rw [startC_eq_try, tryInsertC_char]
    rfl
  · intro r
    cases r <;> norm_num [unitsC, specUnits, unitNs, numHours, numMinutes,
      numSeconds, numMilliseconds, Nat.div_div_eq_div_mul]
  · rw [startA_eq_try, tryInsertA_char]
    rfl
  · intro r
    cases r <;> norm_num [unitsA, specUnits, unitNs, subsecNanos, asSecs,
      Resolution.ord, Nat.div_div_eq_div_mul]

set_option maxRecDepth 8192 in
/-- C4 counterexample: a 1.5 s timer in the `{TenMs}` configuration.
The claim's formula (full duration, truncated, plus 1) gives 151 units —
which the copy variant indeed computes — but the alloc variant computes
51 units from the sub-second remainder alone, and accordingly fires at
tick 50 rather than at the claimed (clamped) tick 99. -/
theorem C4_counterexample :
    unitsA Resolution.TenMs 1500000000 = 51 ∧
    specUnits Resolution.TenMs 1500000000 = 151 ∧
    unitsC Resolution.TenMs 1500000000 = 151 ∧
    outA (armOneA [.TenMs] 0 ("x" : String) 1500000000) 50 = ["x"] ∧
    outA (armOneA [.TenMs] 0 ("x" : String) 1500000000) 99 = [] := by
  decide

/-! ### Claim C5: tiling of the derived sizes -/

/-- Spec-side tiling property of `wheel_sizes`: each non-terminal level's
capacity times its unit spans exactly the next coarser active level's
unit, and the terminal level's capacity times its unit equals that
resolution's fixed maximum span. -/
def tilingOK (rs : List Resolution) : Prop :=
  (∀ i, i + 1 < (wheel_sizes rs).1.length →
    (wheel_sizes rs).2.getD i 0 * unitNs ((wheel_sizes rs).1.getD i .Ms)
      = unitNs ((wheel_sizes rs).1.getD (i + 1) .Ms)) ∧
  (wheel_sizes rs).2.getD ((wheel_sizes rs).1.length - 1) 0
      * unitNs ((wheel_sizes rs).1.getD ((wheel_sizes rs).1.length - 1) .Ms)
    = maxSpanNs ((wheel_sizes rs).1.getD ((wheel_sizes rs).1.length - 1) .Ms)

/-- C5 (amended): the tiling invariant does not hold for every non-empty
configuration; it holds exactly when no adjacent pair of active levels
jumps a unit boundary the table cannot bridge — every adjacent active
pair must either stay at `Sec` or finer, or be `Sec, Min` or `Min, Hour`.
Under that restriction each non-terminal capacity times its unit equals
the next coarser active unit, and the terminal capacity times its unit
equals the fixed maximum span. -/
theorem C5_sizes_tile (rs : List Resolution) (hne : rs ≠ [])
    (hgap : List.Chain' gapOK (wheel_sizes rs).1) : tilingOK rs := by
  have h1 := (normalize_facts rs).1
  have hne2 := normalize_ne_nil rs hne
  have hch := chain'_and (normalize rs) h1 hgap
  obtain ⟨ht1, ht2⟩ := tile_of_chain (normalize rs) hne2 hch
  exact ⟨ht1, ht2⟩

/-- C5 counterexample: the configuration `{Sec, Hour}` is non-empty, yet
its derived sizes `[60, 24]` do not tile: the `Sec` level spans
60 × 1 s = 60 s, which is not the 3600 s unit of the next coarser active
level `Hour`. -/
theorem C5_counterexample : ¬ tilingOK [.Sec, .Hour] :=
  fun h => absurd (h.1 0 (by decide)) (by decide)

/-- Witness for C5 at the configuration `{Ms, TenMs, Sec, Min}`, whose
adjacent active pairs all satisfy the gap restriction. -/
theorem C5_sizes_tile_witness :
    ([.Ms, .TenMs, .Sec, .Min] : List Resolution) ≠ [] ∧
    List.Chain' gapOK (wheel_sizes [.Ms, .TenMs, .Sec, .Min]).1 ∧
    tilingOK [.Ms, .TenMs, .Sec, .Min] := by
  have hres : (wheel_sizes [.Ms, .TenMs, .Sec, .Min]).1 = [.Ms, .TenMs, .Sec, .Min] := by
    decide
  have hchain : List.Chain' gapOK (wheel_sizes [.Ms, .TenMs, .Sec, .Min]).1 := by
    rw [hres]
    exact List.chain'_cons.2 ⟨by decide, List.chain'_cons.2 ⟨by decide,
      List.chain'_cons.2 ⟨by decide, List.chain'_singleton _⟩⟩⟩
  exact ⟨by decide, hchain, C5_sizes_tile _ (by decide) hchain⟩

/-! ### Claim C6: the wheel_sizes table -/

/-- Spec-side per-level size table, phrased exactly as claim C6 states
it. -/
def claimSize (r : Resolution) (next : Option Resolution) : Nat :=
  match r with
  | .Ms => match next with
    | none => 1000
    | some .TenMs => 10
    | some .HundredMs => 100
    | some _ => 1000
  | .TenMs => match next with
    | none => 100
    | some .HundredMs => 10
    | some _ => 100
  | .HundredMs => 10
  | .Sec => 60
  | .Min => 60
  | .Hour => 24

/-- Spec-side size list: one size per normalized level, each looking at
the immediately next coarser active level. -/
def claimSizes : List Resolution → List Nat
  | [] => []
  | r :: rest => claimSize r rest.head? :: claimSizes rest

theorem sizeOfRes_eq_claimSize : ∀ (r : Resolution) (next : Option Resolution),
    sizeOfRes r next = claimSize r next := by
  intro r next
  cases r <;> cases next <;> first
    | rfl
    | (rename_i n; cases n <;> rfl)

theorem sizesOf_eq_claimSizes : ∀ l : List Resolution, sizesOf l = claimSizes l := by
  intro l
  induction l with
  | nil => rfl
  | cons r rest ih =>
    simp only [sizesOf, claimSizes, ih, List.cons.injEq, and_true]
    exact sizeOfRes_eq_claimSize r rest.head?

/-- C6 (confirmed): `wheel_sizes` normalizes its input to a strictly
ascending (finest-first), deduplicated sequence with exactly the input's
members — the order the caller observes afterwards, since the Rust
function sorts and dedups in place — and returns one size per normalized
level according to the claim's table. -/
theorem C6_wheel_sizes_table (rs : List Resolution) :
    List.Chain' (fun a b => Resolution.ord a < Resolution.ord b) (wheel_sizes rs).1 ∧
    (∀ r, r ∈ (wheel_sizes rs).1 ↔ r ∈ rs) ∧
    (wheel_sizes rs).2 = claimSizes (wheel_sizes rs).1 := by
  obtain ⟨h1, h2⟩ := normalize_facts rs
  refine ⟨h1, h2, ?_⟩
  show sizesOf (normalize rs) = claimSizes (normalize rs)
  exact sizesOf_eq_claimSizes (normalize rs)

/-! ### Claim C7: the landing slot versus the open slot -/

/-- C7 (amended): an accepted placement (in either variant) appends the
entry at slot `(cursor + min units capacity) % capacity` of the found
level — the clamp caps `units` at the capacity — and that index differs
from the level's current cursor exactly when the clamped unit count is
strictly below the capacity.  When `units ≥ capacity` (in particular
after clamping a too-long timer, or when the duration fills the level
exactly), the entry lands precisely on the currently-open slot. -/
theorem C7_slot_vs_cursor (E : Type) [DecidableEq E] (lv : Levels E) (e : E)
    (wi u cap cursor : Nat)
    (hcap : ((lv.getD wi ([], 0)).1).length = cap)
    (hcur : (lv.getD wi ([], 0)).2 = cursor)
    (hclt : cursor < cap) (hu2 : 2 ≤ u) (hwi : wi < lv.length) :
    (∀ (w : CopyWheel K) (k : K) (res : Resolution) (wj : Nat),
      rposition w.resolutions res = some wj →
      insertC w k res u = some { w with levels := placeLevel w.levels wj k u }) ∧
    (∀ (wa : AllocWheel K) (id : Nat) (res : Resolution) (wj : Nat),
      rposition wa.resolutions res = some wj →
      insertA wa id res u = some { wa with levels := placeLevel wa.levels wj id u }) ∧
    (slotAt (placeLevel lv wi e u) wi (placeIndex lv wi u)).count e
      = (slotAt lv wi (placeIndex lv wi u)).count e + 1 ∧
    placeIndex lv wi u = (cursor + min u cap) % cap ∧
    (placeIndex lv wi u = cursor ↔ cap ≤ u) := by
  have hcap0 : 0 < cap := by omega
  have hcappos : 0 < ((lv.getD wi ([], 0)).1).length := by omega
  have hpi : placeIndex lv wi u = (cursor + min u cap) % cap := by
    simp only [placeIndex]
    rw [hcap, hcur]
    congr 2
    by_cases h : u > cap
    · rw [if_pos h]
      omega
    · rw [if_neg h]
      omega
  refine ⟨?_, ?_, ?_, hpi, ?_⟩
  · intro w k res wj hrp
    rw [insertC_eq, if_neg (show ¬ u = 1 by omega), hrp]
  · intro wa id res wj hrp
    rw [insertA_eq, if_neg (show ¬ u = 1 by omega), hrp]
  · rw [slotAt_place_self lv wi e u hwi hcappos, List.count_append]
    simp
  · rw [hpi]
    constructor
    · intro h
      by_contra hlt
      push_neg at hlt
      rw [Nat.min_eq_left (by omega)] at h
      by_cases hs : cursor + u < cap
      · rw [Nat.mod_eq_of_lt hs] at h
        omega
      · have h2 : (cursor + u) % cap = cursor + u - cap := by
          rw [Nat.mod_eq_sub_mod (by omega), Nat.mod_eq_of_lt (by omega)]
        rw [h2] at h
        omega
    · intro h
      rw [Nat.min_eq_right h, Nat.add_mod_right]
      exact Nat.mod_eq_of_lt hclt

/-- C7 counterexample: a 999 ms timer in the `{TenMs}` configuration is
accepted with 100 units — exactly the level capacity — and lands at slot
`(0 + 100) % 100 = 0`, the currently-open slot, in both variants. -/
theorem C7_counterexample :
    unitsC Resolution.TenMs 999000000 = 100 ∧
    unitsA Resolution.TenMs 999000000 = 100 ∧
    cursorsOf (startC (newC [.TenMs]) ("x" : String) 999000000).levels = [0] ∧
    (slotAt (startC (newC [.TenMs]) ("x" : String) 999000000).levels 0 0).count "x" = 1 ∧
    cursorsOf (startA (newA [.TenMs]) ("x" : String) 999000000).levels = [0] ∧
    (slotAt (startA (newA [.TenMs]) ("x" : String) 999000000).levels 0 0).count 0 = 1 := by
  decide

/-- Witness for C7 (amended) at a concrete three-slot level with cursor 1
and 2 units: the entry lands at slot `(1 + min 2 3) % 3 = 0 ≠ 1`. -/
theorem C7_slot_vs_cursor_witness :
    (1 < 3 ∧ 2 ≤ 2 ∧ 0 < 1) ∧
    placeIndex [((List.replicate 3 ([] : List Nat)), 1)] 0 2 = (1 + min 2 3) % 3 ∧
    (placeIndex [((List.replicate 3 ([] : List Nat)), 1)] 0 2 = 1 ↔ 3 ≤ 2) :=
  ⟨⟨by decide, by decide, by decide⟩,
    (C7_slot_vs_cursor (K := Nat) Nat [((List.replicate 3 ([] : List Nat)), 1)] 7 0 2 3 1
      (by decide) (by decide) (by decide) (by decide) (by decide)).2.2.2⟩

/-! ### Claim C8: durations below the finest threshold -/

theorem totalZeroC_run (w : CopyWheel K) (k : K) (h : totalCount w.levels k = 0) :
    ∀ t, (tickC w t).keys.count k = w.keys.count k ∧ (outC w t).count k = 0 := by
  have hkeys : ∀ t, (tickC w t).keys.count k = w.keys.count k := by
    intro t
    induction t with
    | zero => rfl
    | succ t ih =>
      have hd := (drainC_count (tickC w t).levels (tickC w t).keys k).1
      have hd2 := (drainC_count (tickC w t).levels (tickC w t).keys k).2
      have hle := drainedCount_le_total (tickC w t).levels k
      have htot := tickC_total_zero w k h t
      rw [tickC_succ]
      show ((drainLevels filterRemove (tickC w t).keys (tickC w t).levels).1).count k = _
      omega
  intro t
  refine ⟨hkeys t, ?_⟩
  have hd := (drainC_count (tickC w t).levels (tickC w t).keys k).1
  have hle := drainedCount_le_total (tickC w t).levels k
  have htot := tickC_total_zero w k h t
  show ((drainLevels filterRemove (tickC w t).keys (tickC w t).levels).2.2).count k = 0
  omega

theorem totalZeroA_run (w : AllocWheel K) (id : Nat) (k : K) (hInv : RegInv w.keys)
    (hmem : (id, k) ∈ w.keys) (h : totalCount w.levels id = 0) :
    ∀ t, (id, k) ∈ (tickA w t).keys ∧ (outA w t).count k = 0 := by
  have hstat : ∀ t, (id, k) ∈ (tickA w t).keys ∧ RegInv (tickA w t).keys := by
    intro t
    induction t with
    | zero => exact ⟨hmem, hInv⟩
    | succ t ih =>
      obtain ⟨im, iI⟩ := ih
      obtain ⟨a1, a2, a3, a4, a5, a6⟩ := drainA_spec (tickA w t).levels (tickA w t).keys
        (tickA w t).fail iI
      have htot := tickA_total_zero w id h t
      have hle := drainedCount_le_total (tickA w t).levels id
      constructor
      · rw [tickA_succ]
        show (id, k) ∈ (drainLevels upgradeFilter ((tickA w t).keys, (tickA w t).fail)
          (tickA w t).levels).1.1
        exact a5 (id, k) im (by show drainedCount (tickA w t).levels id = 0; omega)
      · rw [tickA_succ]
        exact a1
  intro t
  obtain ⟨im, iI⟩ := hstat t
  obtain ⟨a1, a2, a3, a4, a5, a6⟩ := drainA_spec (tickA w t).levels (tickA w t).keys
    (tickA w t).fail iI
  have htot := tickA_total_zero w id h t
  have hle := drainedCount_le_total (tickA w t).levels id
  have hsurv := a5 (id, k) im (by show drainedCount (tickA w t).levels id = 0; omega)
  have hvpos : 0 < valCount (drainLevels upgradeFilter ((tickA w t).keys, (tickA w t).fail)
      (tickA w t).levels).1.1 k :=
    List.count_pos_iff.2 (List.mem_map.2 ⟨(id, k), hsurv, rfl⟩)
  have hle1 : valCount (tickA w t).keys k ≤ 1 := List.nodup_iff_count_le_one.1 iI.2 k
  have ha4 := a4 k
  refine ⟨im, ?_⟩
  show ((drainLevels upgradeFilter ((tickA w t).keys, (tickA w t).fail)
    (tickA w t).levels).2.2).count k = 0
  omega

theorem startA_eq_scan (w : AllocWheel K) (k : K) (d : Nat) :
    startA w k d = specScanA w k d unitsA := by
  rw [startA_eq_try, tryInsertA_char]
  rfl

/-- C8 (confirmed): when every placement attempt rejects — as happens
when the duration maps to zero full units even at the finest active
resolution, so every tried level computes `units = 1` — `start` still
inserts the key into the registry but into no slot: the key sits in the
registry across any number of `expire()` calls, none of which ever
returns it, and `stop()` removes it. -/
theorem C8_below_threshold (rs : List Resolution) (d t0 : Nat) (k : K)
    (hrejC : levelOrder.find? (acceptB (normalize rs) d unitsC) = none)
    (hrejA : levelOrder.find? (acceptB (normalize rs) d unitsA) = none) :
    (armOneC rs t0 k d).keys = [k] ∧
    totalCount (armOneC rs t0 k d).levels k = 0 ∧
    (∀ t, (tickC (armOneC rs t0 k d) t).keys.count k = 1 ∧
      (outC (armOneC rs t0 k d) t).count k = 0) ∧
    (stopC (armOneC rs t0 k d) k).keys = [] ∧
    (armOneA rs t0 k d).keys = [(0, k)] ∧
    (∀ x : Nat, totalCount (armOneA rs t0 k d).levels x = 0) ∧
    (∀ t, (0, k) ∈ (tickA (armOneA rs t0 k d) t).keys ∧
      (outA (armOneA rs t0 k d) t).count k = 0) ∧
    (stopA (armOneA rs t0 k d) k).keys = [] := by
  obtain ⟨hres, hshape, hkeys0, htot⟩ := tickC_new_facts (K := K) rs t0
  have hres2 : ({ tickC (newC (K := K) rs) t0 with
      keys := insertKey (tickC (newC (K := K) rs) t0).keys k } : CopyWheel K).resolutions
      = normalize rs := hres
  have hfind2 : levelOrder.find? (acceptB ({ tickC (newC (K := K) rs) t0 with
      keys := insertKey (tickC (newC (K := K) rs) t0).keys k } : CopyWheel K).resolutions
        d unitsC) = none := by
    rw [hres2]
    exact hrejC
  have harm : armOneC rs t0 k d = { tickC (newC (K := K) rs) t0 with
      keys := insertKey (tickC (newC (K := K) rs) t0).keys k } := by
    rw [armOneC, startC_eq_try, tryInsertC_char, hfind2]
  have hk1 : (armOneC rs t0 k d).keys = [k] := by
    rw [harm]
    show insertKey (tickC (newC (K := K) rs) t0).keys k = [k]
    rw [hkeys0]
    simp [insertKey]
  have hlv : (armOneC rs t0 k d).levels = (tickC (newC (K := K) rs) t0).levels := by
    rw [harm]
  have htotC : totalCount (armOneC rs t0 k d).levels k = 0 := by
    rw [hlv]
    exact htot k
  have hrunC := totalZeroC_run (armOneC rs t0 k d) k htotC
  obtain ⟨hresA, hshapeA, hkeysA, htotA, hnextA, hfailA⟩ := tickA_new_facts (K := K) rs t0
  have hfindA2 : levelOrder.find? (acceptB (tickA (newA (K := K) rs) t0).resolutions
      d unitsA) = none := by
    rw [hresA]
    exact hrejA
  have harmA : armOneA rs t0 k d = regArmA (tickA (newA (K := K) rs) t0) k := by
    rw [armOneA, startA_eq_scan]
    unfold specScanA
    rw [hfindA2]
  have hkA : (armOneA rs t0 k d).keys = [(0, k)] := by
    rw [harmA]
    simp [regArmA, hkeysA, hnextA]
  have hlvA : (armOneA rs t0 k d).levels = (tickA (newA (K := K) rs) t0).levels := by
    rw [harmA]
    rfl
  have htotA2 : ∀ x, totalCount (armOneA rs t0 k d).levels x = 0 := fun x => by
    rw [hlvA]
    exact htotA x
  have hInvA : RegInv (armOneA rs t0 k d).keys := by
    rw [hkA]
    exact ⟨by simp, by simp⟩
  have hmemA : (0, k) ∈ (armOneA rs t0 k d).keys := by
    rw [hkA]
    simp
  have hrunA := totalZeroA_run (armOneA rs t0 k d) 0 k hInvA hmemA (htotA2 0)
  refine ⟨hk1, htotC, ?_, ?_, hkA, htotA2, hrunA, ?_⟩
  · intro t
    obtain ⟨h1, h2⟩ := hrunC t
    refine ⟨?_, h2⟩
    rw [h1, hk1]
    simp
  · show (armOneC rs t0 k d).keys.erase k = []
    rw [hk1]
    simp
  · show (armOneA rs t0 k d).keys.eraseP (fun e => e.2 = k) = []
    rw [hkA]
    simp [List.eraseP_cons]

/-- Witness for C8: a 5 ms timer in the `{Sec}` configuration — below
one unit of the finest (and only) active level. -/
theorem C8_below_threshold_witness :
    levelOrder.find? (acceptB (normalize [.Sec]) 5000000 unitsC) = none ∧
    levelOrder.find? (acceptB (normalize [.Sec]) 5000000 unitsA) = none ∧
    (armOneC [.Sec] 0 ("k" : String) 5000000).keys = ["k"] ∧
    (outC (armOneC [.Sec] 0 ("k" : String) 5000000) 3).count "k" = 0 ∧
    (armOneA [.Sec] 0 ("k" : String) 5000000).keys = [(0, "k")] ∧
    (stopA (armOneA [.Sec] 0 ("k" : String) 5000000) "k").keys = [] :=
  ⟨by decide, by decide,
    (C8_below_threshold [.Sec] 5000000 0 "k" (by decide) (by decide)).1,
    ((C8_below_threshold [.Sec] 5000000 0 "k" (by decide) (by decide)).2.2.1 3).2,
    (C8_below_threshold [.Sec] 5000000 0 "k" (by decide) (by decide)).2.2.2.2.1,
    (C8_below_threshold [.Sec] 5000000 0 "k" (by decide) (by decide)).2.2.2.2.2.2.2⟩

/-! ### Claim C9: rotation and cascade of the cursors -/

theorem prod_take_dvd (sz : List Nat) (a b : Nat) (hab : a ≤ b) :
    (sz.take a).prod ∣ (sz.take b).prod := by
  refine ⟨((sz.take b).drop a).prod, ?_⟩
  rw [← List.prod_take_mul_prod_drop (sz.take b) a]
  congr 1
  rw [List.take_take, Nat.min_eq_left hab]

theorem take_succ_prod (sz : List Nat) : ∀ l, l < sz.length →
    (sz.take (l + 1)).prod = (sz.take l).prod * sz.getD l 0 := by
  induction sz with
  | nil => intro l hl; simp at hl
  | cons s rest ih =>
    intro l hl
    cases l with
    | zero => simp
    | succ l2 =>
      simp only [List.take_succ_cons, List.prod_cons, List.getD_cons_succ]
      rw [ih l2 (by simpa using hl)]
      ring

theorem div_mod_change_iff (P cap m : Nat) (hP : 0 < P) (hcap : 2 ≤ cap) :
    (((m + 1) / P) % cap ≠ (m / P) % cap) ↔ P ∣ (m + 1) := by
  constructor
  · intro hne
    by_contra hdvd
    rw [Nat.succ_div, if_neg hdvd] at hne
    simp at hne
  · intro hdvd heq
    rw [Nat.succ_div, if_pos hdvd] at heq
    have hdd := (Nat.ModEq.symm
      (show Nat.ModEq cap (m / P + 1) (m / P) from heq)).dvd
    have h1 : ((m / P + 1 : Nat) : Int) - ((m / P : Nat) : Int) = 1 := by
      push_cast
      ring
    rw [h1] at hdd
    have h2 : (cap : Int) ≤ 1 := Int.le_of_dvd (by norm_num) hdd
    omega

theorem dvd_window_iff (s0 n j : Nat) (hs : 0 < s0) (hj : j < s0) :
    s0 ∣ (n + j + 1) ↔ j = s0 - 1 - n % s0 := by
  have hd := Nat.div_add_mod n s0
  have hqlt : n % s0 < s0 := Nat.mod_lt _ hs
  constructor
  · rintro ⟨c, hc⟩
    have hc2 : c = n / s0 + 1 := by
      rcases Nat.lt_trichotomy c (n / s0 + 1) with h | h | h
      · have hle : s0 * c ≤ s0 * (n / s0) := Nat.mul_le_mul_left s0 (by omega)
        omega
      · exact h
      · have hle : s0 * (n / s0 + 2) ≤ s0 * c := Nat.mul_le_mul_left s0 (by omega)
        rw [Nat.mul_add] at hle
        omega
    subst hc2
    rw [Nat.mul_add] at hc
    omega
  · intro hj0
    refine ⟨n / s0 + 1, ?_⟩
    rw [Nat.mul_add]
    omega

theorem digits_rotation (sz : List Nat) (n : Nat) (h2 : ∀ s ∈ sz, 2 ≤ s)
    (hlen : 0 < sz.length) :
    (digits sz (n + sz.getD 0 0)).getD 0 0 = (digits sz n).getD 0 0 ∧
    (1 < sz.length →
      (digits sz (n + sz.getD 0 0)).getD 1 0
        = ((digits sz n).getD 1 0 + 1) % sz.getD 1 0 ∧
      ∃ j0, j0 < sz.getD 0 0 ∧ ∀ j, j < sz.getD 0 0 →
        (((digits sz (n + j + 1)).getD 1 0 ≠ (digits sz (n + j)).getD 1 0) ↔ j = j0)) ∧
    (∀ L l m, l < L → L < sz.length →
      (digits sz (m + 1)).getD L 0 ≠ (digits sz m).getD L 0 →
      (digits sz (m + 1)).getD l 0 = 0) := by
  have hmem : ∀ i, i < sz.length → sz.getD i 0 ∈ sz := by
    intro i hi
    rw [List.getD_eq_getElem?_getD, List.getElem?_eq_getElem hi, Option.getD_some]
    exact List.getElem_mem hi
  have hs0 : 2 ≤ sz.getD 0 0 := h2 _ (hmem 0 hlen)
  refine ⟨?_, ?_, ?_⟩
  · rw [digits_getD sz (n + sz.getD 0 0) 0 hlen, digits_getD sz n 0 hlen]
    simp [Nat.add_mod_right]
  · intro hlen1
    have hs1 : 2 ≤ sz.getD 1 0 := h2 _ (hmem 1 hlen1)
    have h1p : (sz.take 1).prod = sz.getD 0 0 := by
      rw [take_succ_prod sz 0 hlen]
      simp
    refine ⟨?_, ?_⟩
    · rw [digits_getD sz (n + sz.getD 0 0) 1 hlen1, digits_getD sz n 1 hlen1, h1p]
      rw [Nat.add_div_right n (by omega), Nat.mod_add_mod]
    · refine ⟨sz.getD 0 0 - 1 - n % sz.getD 0 0, by omega, ?_⟩
      intro j hj
      rw [digits_getD sz (n + j + 1) 1 hlen1, digits_getD sz (n + j) 1 hlen1, h1p]
      rw [div_mod_change_iff (sz.getD 0 0) (sz.getD 1 0) (n + j) (by omega) hs1]
      exact dvd_window_iff (sz.getD 0 0) n j (by omega) hj
  · intro L l m hlL hLlen hne
    have hlenl : l < sz.length := by omega
    have hcapL : 2 ≤ sz.getD L 0 := h2 _ (hmem L hLlen)
    have hPpos : 0 < (sz.take L).prod :=
      prod_take_pos sz L (fun s hs => by have := h2 s hs; omega)
    have hPl : 0 < (sz.take l).prod :=
      prod_take_pos sz l (fun s hs => by have := h2 s hs; omega)
    rw [digits_getD sz (m + 1) L hLlen, digits_getD sz m L hLlen] at hne
    have hdvd : (sz.take L).prod ∣ (m + 1) :=
      (div_mod_change_iff ((sz.take L).prod) (sz.getD L 0) m hPpos hcapL).1 hne
    have hdvd2 : (sz.take (l + 1)).prod ∣ (m + 1) :=
      dvd_trans (prod_take_dvd sz (l + 1) L (by omega)) hdvd
    rw [take_succ_prod sz l hlenl] at hdvd2
    obtain ⟨c, hc⟩ := hdvd2
    rw [digits_getD sz (m + 1) l hlenl, hc]
    rw [Nat.mul_assoc, Nat.mul_div_cancel_left _ hPl]
    exact Nat.mul_mod_right _ _

/-- C9 (confirmed): from any state whose levels are shaped like a
reachable state (sizes `sz`, tick count `n`), driving `expire()` exactly
`sz[0]` times — the finest level's capacity — returns the finest cursor
to its starting index; when a second level exists, its cursor ends one
step further (mod its capacity) and changes during exactly one of those
calls; and, at every level and every call, a coarser cursor changes only
when every finer cursor has wrapped to 0 in that same call.  Both
variants. -/
theorem C9_cascade (w : CopyWheel K) (wa : AllocWheel K) (sz : List Nat) (n : Nat)
    (h2 : ∀ s ∈ sz, 2 ≤ s) (hlen : 0 < sz.length)
    (hS : Shaped sz n w.levels) (hSa : Shaped sz n wa.levels) :
    ((cursorsOf (tickC w (sz.getD 0 0)).levels).getD 0 0
        = (cursorsOf w.levels).getD 0 0 ∧
      (1 < sz.length →
        (cursorsOf (tickC w (sz.getD 0 0)).levels).getD 1 0
          = ((cursorsOf w.levels).getD 1 0 + 1) % sz.getD 1 0 ∧
        ∃ j0, j0 < sz.getD 0 0 ∧ ∀ j, j < sz.getD 0 0 →
          (((cursorsOf (tickC w (j + 1)).levels).getD 1 0
              ≠ (cursorsOf (tickC w j).levels).getD 1 0) ↔ j = j0)) ∧
      (∀ L l j, l < L → L < sz.length →
        (cursorsOf (tickC w (j + 1)).levels).getD L 0
          ≠ (cursorsOf (tickC w j).levels).getD L 0 →
        (cursorsOf (tickC w (j + 1)).levels).getD l 0 = 0)) ∧
    ((cursorsOf (tickA wa (sz.getD 0 0)).levels).getD 0 0
        = (cursorsOf wa.levels).getD 0 0 ∧
      (1 < sz.length →
        (cursorsOf (tickA wa (sz.getD 0 0)).levels).getD 1 0
          = ((cursorsOf wa.levels).getD 1 0 + 1) % sz.getD 1 0 ∧
        ∃ j0, j0 < sz.getD 0 0 ∧ ∀ j, j < sz.getD 0 0 →
          (((cursorsOf (tickA wa (j + 1)).levels).getD 1 0
              ≠ (cursorsOf (tickA wa j).levels).getD 1 0) ↔ j = j0)) ∧
      (∀ L l j, l < L → L < sz.length →
        (cursorsOf (tickA wa (j + 1)).levels).getD L 0
          ≠ (cursorsOf (tickA wa j).levels).getD L 0 →
        (cursorsOf (tickA wa (j + 1)).levels).getD l 0 = 0)) := by
  have hpos : AllPos sz := fun s hs => by have := h2 s hs; omega
  have hcurC : ∀ t, cursorsOf (tickC w t).levels = digits sz (n + t) :=
    fun t => (tickC_shape w sz n hpos hS t).2
  have hcurA : ∀ t, cursorsOf (tickA wa t).levels = digits sz (n + t) :=
    fun t => (tickA_shape wa sz n hpos hSa t).2
  obtain ⟨d1, d2, d3⟩ := digits_rotation sz n h2 hlen
  constructor
  · refine ⟨?_, ?_, ?_⟩
    · rw [hcurC, hS.2]
      exact d1
    · intro hlen1
      obtain ⟨e1, e2⟩ := d2 hlen1
      refine ⟨by rw [hcurC, hS.2]; exact e1, ?_⟩
      obtain ⟨j0, hj0, hiff⟩ := e2
      refine ⟨j0, hj0, fun j hj => ?_⟩
      rw [hcurC (j + 1), hcurC j]
      exact hiff j hj
    · intro L l j hlL hL hne
      rw [hcurC (j + 1), hcurC j] at hne
      rw [hcurC (j + 1)]
      exact d3 L l (n + j) hlL hL hne
  · refine ⟨?_, ?_, ?_⟩
    · rw [hcurA, hSa.2]
      exact d1
    · intro hlen1
      obtain ⟨e1, e2⟩ := d2 hlen1
      refine ⟨by rw [hcurA, hSa.2]; exact e1, ?_⟩
      obtain ⟨j0, hj0, hiff⟩ := e2
      refine ⟨j0, hj0, fun j hj => ?_⟩
      rw [hcurA (j + 1), hcurA j]
      exact hiff j hj
    · intro L l j hlL hL hne
      rw [hcurA (j + 1), hcurA j] at hne
      rw [hcurA (j + 1)]
      exact d3 L l (n + j) hlL hL hne

/-- Witness for C9 at fresh `{Sec, Min}` wheels (sizes `[60, 60]`):
after 60 calls the finest cursor is back at its start. -/
theorem C9_cascade_witness :
    (∀ s ∈ ([60, 60] : List Nat), 2 ≤ s) ∧ 0 < ([60, 60] : List Nat).length ∧
    Shaped [60, 60] 0 (newC (K := Nat) [.Sec, .Min]).levels ∧
    Shaped [60, 60] 0 (newA (K := Nat) [.Sec, .Min]).levels ∧
    (cursorsOf (tickC (newC (K := Nat) [.Sec, .Min]) 60).levels).getD 0 0
      = (cursorsOf (newC (K := Nat) [.Sec, .Min]).levels).getD 0 0 :=
  ⟨by decide, by decide, ⟨by decide, by decide⟩, ⟨by decide, by decide⟩,
    (C9_cascade (newC (K := Nat) [.Sec, .Min]) (newA (K := Nat) [.Sec, .Min])
      [60, 60] 0 (by decide) (by decide) ⟨by decide, by decide⟩
      ⟨by decide, by decide⟩).1.1⟩

/-! ### Claim C10: `Rc::try_unwrap(..).unwrap()` never panics -/

/-- A driver operation on an alloc wheel. -/
inductive WOp (K : Type) where
  | start (k : K) (d : Nat)
  | stop (k : K)
  | expire

/-- Apply one driver operation. -/
def applyOp (w : AllocWheel K) : WOp K → AllocWheel K
  | .start k d => startA w k d
  | .stop k => stopA w k
  | .expire => (expireA w).1

/-- Run a list of driver operations. -/
def runOps (w : AllocWheel K) : List (WOp K) → AllocWheel K
  | [] => w
  | op :: rest => runOps (applyOp w op) rest

/-- The claim's proviso: along the trace, `start` is never invoked with a
key equal to one currently armed (present in the registry). -/
def freshStartsB (w : AllocWheel K) : List (WOp K) → Bool
  | [] => true
  | op :: rest =>
    (match op with
      | .start k _ => !(w.keys.any (fun e => e.2 = k))
      | _ => true) && freshStartsB (applyOp w op) rest

/-- The state invariant that rules the panic out: the registry holds
distinct cell ids and distinct key values, every stored id is below the
id counter, and no `Rc::try_unwrap` has failed so far. -/
def AllocInv (w : AllocWheel K) : Prop :=
  RegInv w.keys ∧ (∀ e ∈ w.keys, e.1 < w.nextId) ∧ w.fail = false

theorem startA_parts (w : AllocWheel K) (k : K) (d : Nat) :
    (startA w k d).keys = (regArmA w k).keys ∧
    (startA w k d).nextId = w.nextId + 1 ∧
    (startA w k d).fail = w.fail := by
  rw [startA_eq_scan]
  unfold specScanA
  cases hfind : levelOrder.find? (acceptB w.resolutions d unitsA) with
  | none => exact ⟨rfl, rfl, rfl⟩
  | some res => exact ⟨rfl, rfl, rfl⟩

theorem applyOp_inv (w : AllocWheel K) (op : WOp K) (h : AllocInv w) :
    AllocInv (applyOp w op) := by
  obtain ⟨hreg, hbound, hfail⟩ := h
  cases op with
  | start k d =>
    show AllocInv (startA w k d)
    obtain ⟨p1, p2, p3⟩ := startA_parts w k d
    have hany0 : ¬ w.keys.any (fun e => e.2 = k) = true →
        ∀ e ∈ w.keys, ¬ e.2 = k := by
      intro hany e he hek
      exact hany (List.any_eq_true.2 ⟨e, he, by simp [hek]⟩)
    refine ⟨?_, ?_, by rw [p3]; exact hfail⟩
    · rw [p1]
      show RegInv (if w.keys.any (fun e => e.2 = k) then w.keys
        else w.keys ++ [(w.nextId, k)])
      by_cases hany : w.keys.any (fun e => e.2 = k) = true
      · rw [if_pos hany]
        exact hreg
      · rw [if_neg hany]
        constructor
        · rw [List.map_append]
          refine List.Nodup.append hreg.1 (by simp) ?_
          intro a ha hb
          simp only [List.map_cons, List.map_nil, List.mem_singleton] at hb
          obtain ⟨e, he, hea⟩ := List.mem_map.1 ha
          have := hbound e he
          omega
        · rw [List.map_append]
          refine List.Nodup.append hreg.2 (by simp) ?_
          intro a ha hb
          simp only [List.map_cons, List.map_nil, List.mem_singleton] at hb
          obtain ⟨e, he, hea⟩ := List.mem_map.1 ha
          subst hb
          exact hany0 hany e he hea
    · rw [p1, p2]
      show ∀ e ∈ (if w.keys.any (fun e => e.2 = k) then w.keys
        else w.keys ++ [(w.nextId, k)]), e.1 < w.nextId + 1
      by_cases hany : w.keys.any (fun e => e.2 = k) = true
      · rw [if_pos hany]
        intro e he
        have := hbound e he
        omega
      · rw [if_neg hany]
        intro e he
        rcases List.mem_append.1 he with h | h
        · have := hbound e h
          omega
        · simp only [List.mem_singleton] at h
          subst h
          simp
  | stop k =>
    show AllocInv (stopA w k)
    refine ⟨RegInv_eraseP w.keys _ hreg, ?_, hfail⟩
    intro e he
    have hsub : List.Sublist (w.keys.eraseP (fun e => e.2 = k)) w.keys :=
      List.eraseP_sublist (l := w.keys)
    exact hbound e (hsub.subset he)
  | expire =>
    show AllocInv (expireA w).1
    obtain ⟨a1, a2, a3, a4, a5, a6⟩ := drainA_spec w.levels w.keys w.fail hreg
    obtain ⟨e1, e2, e3, e4, e5⟩ := expireA_parts w
    refine ⟨?_, ?_, ?_⟩
    · rw [e2]
      exact a1
    · intro e he
      rw [e2] at he
      have hmem : e ∈ w.keys := a3 e he
      have hnext : (expireA w).1.nextId = w.nextId := rfl
      rw [hnext]
      exact hbound e hmem
    · rw [e3, a2]
      exact hfail

theorem runOps_inv (ops : List (WOp K)) : ∀ (w : AllocWheel K), AllocInv w →
    AllocInv (runOps w ops) := by
  induction ops with
  | nil => intro w h; exact h
  | cons op rest ih =>
    intro w h
    exact ih _ (applyOp_inv w op h)

/-- C10 (confirmed): along any trace of `start`/`stop`/`expire`
operations from a fresh alloc wheel in which `start` is never called
with a key equal to one currently armed, the `Rc::try_unwrap(..)
.unwrap()` in `AllocWheel::expire` never panics — the upgraded `Rc` of a
drained entry that is removed from the registry is always the unique
remaining strong reference.  (The proof establishes the invariant —
distinct cell ids and key values, ids bounded by the id counter — that
makes the panic impossible; the proviso of the claim is not even
needed.) -/
theorem C10_no_unwrap_panic (rs : List Resolution) (ops : List (WOp K))
    (hfresh : freshStartsB (newA (K := K) rs) ops = true) :
    (runOps (newA (K := K) rs) ops).fail = false := by
  have h0 : AllocInv (newA (K := K) rs) := by
    refine ⟨⟨by simp [newA], by simp [newA]⟩, ?_, rfl⟩
    intro e he
    simp [newA] at he
  exact (runOps_inv ops _ h0).2.2

/-- Witness for C10: a nine-operation trace on a `{HundredMs}` wheel with
two timers, one cancellation and several expiries. -/
theorem C10_no_unwrap_panic_witness :
    freshStartsB (newA (K := String) [.HundredMs])
      [.start "a" 500000000, .expire, .start "b" 300000000, .stop "a", .expire,
        .expire, .expire, .expire, .expire] = true ∧
    (runOps (newA (K := String) [.HundredMs])
      [.start "a" 500000000, .expire, .start "b" 300000000, .stop "a", .expire,
        .expire, .expire, .expire, .expire]).fail = false :=
  ⟨by decide, C10_no_unwrap_panic [.HundredMs] _ (by decide)⟩

end Ferris
